import Mathlib

/-!
Verification of the mettagrid simulation core against its specification.

Shallow embedding of the C++ sources:
* `query_system.cpp` / `query_config.hpp` — filters, closure-query BFS,
  materialized-query-tag recomputation;
* `aoe_tracker.cpp` — fixed-AOE cell registration, territory contest,
  deferred resource-delta flush;
* `grid_object.cpp` — tag bitset operations and lifecycle dispatch;
* `resource_mutation.hpp` — `ResourceDeltaMutation::apply`;
* `reward.hpp` — `RewardHelper::compute_entries`;
* `mettagrid_c.cpp` — observation token accounting and the per-tick
  reward buffers.

Sub-query evaluation results, filter predicates and RNG shuffles are
abstracted as values/functions supplied to the embedded operations;
machine integers are modelled as `Int`/`Nat` (the claims under study do
not exercise overflow), and C++ `float` arithmetic is modelled over `ℚ`.
-/

namespace MettaGridSpec

/-! ## Query system (query_system.cpp)

`matches_edge_filters` (lines 53–72): with an *empty* filter list the
function returns `true` immediately; otherwise every filter must pass
with `actor = source`, `target = candidate`.  Filters are embedded as
boolean binary predicates (the result of `create_filter(cfg)->passes`
on a fixed world snapshot); a null filter is skipped by the C++ loop,
which is the same as it passing, so only non-null filters are listed. -/

def matches_edge_filters {α : Type} (fs : List (α → α → Bool)) (src cand : α) : Bool :=
  if fs.isEmpty then true else fs.all (fun f => f src cand)

/-- `QuerySystem::matches_filters` (lines 33–51): empty list passes;
otherwise all unary filters must pass with `actor = target = obj`. -/
def matches_filters {α : Type} (fs : List (α → Bool)) (obj : α) : Bool :=
  if fs.isEmpty then true else fs.all (fun f => f obj)

/-- Inner loop of `ClosureQueryConfig::evaluate` (lines 206–213): walk the
candidate pool once for the dequeued `current`; a candidate already in
`visited` is skipped, one failing the edge filters is skipped, otherwise it
is inserted into `visited` (and pushed on the queue).  Returns the list of
newly visited candidates, in pool order. -/
def visit_candidates {α : Type} [DecidableEq α] (fs : List (α → α → Bool)) (current : α) :
    List α → List α → List α
  | [], _ => []
  | cand :: pool, visited =>
    if cand ∈ visited then visit_candidates fs current pool visited
    else if matches_edge_filters fs current cand then
      cand :: visit_candidates fs current pool (visited ++ [cand])
    else visit_candidates fs current pool visited

theorem visit_candidates_subset {α : Type} [DecidableEq α] (fs : List (α → α → Bool))
    (current : α) (pool : List α) :
    ∀ visited a, a ∈ visit_candidates fs current pool visited → a ∈ pool := by
  induction pool with
  | nil => intro visited a h; simp [visit_candidates] at h
  | cons cand rest ih =>
    intro visited a h
    simp only [visit_candidates] at h
    by_cases hv : cand ∈ visited
    · simp [hv] at h
      exact List.mem_cons_of_mem _ (ih visited a h)
    · simp only [if_neg hv] at h
      by_cases he : matches_edge_filters fs current cand
      · rw [if_pos he] at h
        rcases List.mem_cons.mp h with h | h
        · exact h ▸ List.mem_cons_self _ _
        · exact List.mem_cons_of_mem _ (ih _ a h)
      · rw [if_neg he] at h
        exact List.mem_cons_of_mem _ (ih visited a h)

theorem visit_candidates_not_visited {α : Type} [DecidableEq α] (fs : List (α → α → Bool))
    (current : α) (pool : List α) :
    ∀ visited a, a ∈ visit_candidates fs current pool visited → a ∉ visited := by
  induction pool with
  | nil => intro visited a h; simp [visit_candidates] at h
  | cons cand rest ih =>
    intro visited a h
    simp only [visit_candidates] at h
    by_cases hv : cand ∈ visited
    · rw [if_pos hv] at h
      exact ih visited a h
    · rw [if_neg hv] at h
      by_cases he : matches_edge_filters fs current cand
      · rw [if_pos he] at h
        rcases List.mem_cons.mp h with h | h
        · exact h ▸ hv
        · intro hmem
          exact ih _ a h (List.mem_append_left _ hmem)
      · rw [if_neg he] at h
        exact ih visited a h

theorem visit_candidates_nodup {α : Type} [DecidableEq α] (fs : List (α → α → Bool))
    (current : α) (pool : List α) :
    ∀ visited, (visit_candidates fs current pool visited).Nodup := by
  induction pool with
  | nil => intro visited; simp [visit_candidates]
  | cons cand rest ih =>
    intro visited
    simp only [visit_candidates]
    by_cases hv : cand ∈ visited
    · rw [if_pos hv]; exact ih visited
    · rw [if_neg hv]
      by_cases he : matches_edge_filters fs current cand
      · rw [if_pos he]
        refine List.nodup_cons.mpr ⟨?_, ih _⟩
        intro hmem
        exact visit_candidates_not_visited fs current rest _ cand hmem
          (List.mem_append_right _ (List.mem_singleton.mpr rfl))
      · rw [if_neg he]; exact ih visited

theorem visit_candidates_edge {α : Type} [DecidableEq α] (fs : List (α → α → Bool))
    (current : α) (pool : List α) :
    ∀ visited a, a ∈ visit_candidates fs current pool visited →
      matches_edge_filters fs current a = true := by
  induction pool with
  | nil => intro visited a h; simp [visit_candidates] at h
  | cons cand rest ih =>
    intro visited a h
    simp only [visit_candidates] at h
    by_cases hv : cand ∈ visited
    · rw [if_pos hv] at h; exact ih visited a h
    · rw [if_neg hv] at h
      by_cases he : matches_edge_filters fs current cand
      · rw [if_pos he] at h
        rcases List.mem_cons.mp h with h | h
        · exact h ▸ he
        · exact ih _ a h
      · rw [if_neg he] at h; exact ih visited a h

/-- Every pool candidate whose edge filters pass from `current` ends up
either already visited or among the newly added. -/
theorem visit_candidates_covers {α : Type} [DecidableEq α] (fs : List (α → α → Bool))
    (current : α) (pool : List α) :
    ∀ visited c, c ∈ pool → matches_edge_filters fs current c = true →
      c ∈ visited ∨ c ∈ visit_candidates fs current pool visited := by
  induction pool with
  | nil => intro visited c h; simp at h
  | cons cand rest ih =>
    intro visited c hc he
    simp only [visit_candidates]
    by_cases hv : cand ∈ visited
    · rw [if_pos hv]
      rcases List.mem_cons.mp hc with h | h
      · exact Or.inl (h ▸ hv)
      · exact ih visited c h he
    · rw [if_neg hv]
      by_cases hce : matches_edge_filters fs current cand
      · rw [if_pos hce]
        rcases List.mem_cons.mp hc with h | h
        · exact Or.inr (h ▸ List.mem_cons_self _ _)
        · rcases ih (visited ++ [cand]) c h he with h2 | h2
          · rcases List.mem_append.mp h2 with h3 | h3
            · exact Or.inl h3
            · exact Or.inr (List.mem_singleton.mp h3 ▸ List.mem_cons_self _ _)
          · exact Or.inr (List.mem_cons_of_mem _ h2)
      · rw [if_neg hce]
        rcases List.mem_cons.mp hc with h | h
        · exact absurd he (h ▸ hce ∘ id)
        · exact ih visited c h he

/-- Measure for the BFS worklist: unvisited pool elements weighted above
the frontier length. -/
def bfs_measure {α : Type} [DecidableEq α] (pool frontier visited : List α) : ℕ :=
  (pool.toFinset \ visited.toFinset).card * (pool.length + 1) + frontier.length

theorem bfs_measure_decreases {α : Type} [DecidableEq α] (fs : List (α → α → Bool))
    (pool : List α) (current : α) (rest visited : List α) :
    bfs_measure pool (rest ++ visit_candidates fs current pool visited)
        (visited ++ visit_candidates fs current pool visited) <
      bfs_measure pool (current :: rest) visited := by
  set A := visit_candidates fs current pool visited with hA
  have hsub : A.toFinset ⊆ pool.toFinset \ visited.toFinset := by
    intro x hx
    rw [List.mem_toFinset] at hx
    rw [Finset.mem_sdiff, List.mem_toFinset, List.mem_toFinset]
    exact ⟨visit_candidates_subset fs current pool visited x hx,
      visit_candidates_not_visited fs current pool visited x hx⟩
  have hnodup : A.Nodup := visit_candidates_nodup fs current pool visited
  have hcardA : A.toFinset.card = A.length := List.toFinset_card_of_nodup hnodup
  have hunion : (visited ++ A).toFinset = visited.toFinset ∪ A.toFinset := by
    simp [List.toFinset_append]
  have hsd : pool.toFinset \ (visited.toFinset ∪ A.toFinset)
      = (pool.toFinset \ visited.toFinset) \ A.toFinset := by
    ext x
    simp only [Finset.mem_sdiff, Finset.mem_union]
    tauto
  have hcard : (pool.toFinset \ (visited ++ A).toFinset).card
      = (pool.toFinset \ visited.toFinset).card - A.length := by
    rw [hunion, hsd, Finset.card_sdiff hsub, hcardA]
  have hle : A.length ≤ (pool.toFinset \ visited.toFinset).card := by
    calc A.length = A.toFinset.card := hcardA.symm
    _ ≤ (pool.toFinset \ visited.toFinset).card := Finset.card_le_card hsub
  simp only [bfs_measure, hcard, List.length_append, List.length_cons]
  set U := (pool.toFinset \ visited.toFinset).card
  set L := pool.length
  set a := A.length
  have hmul : (U - a) * (L + 1) = U * (L + 1) - a * (L + 1) := Nat.sub_mul U a (L + 1)
  have hmul2 : a * (L + 1) ≤ U * (L + 1) := Nat.mul_le_mul_right _ hle
  have hmul3 : a ≤ a * (L + 1) := Nat.le_mul_of_pos_right a (Nat.succ_pos L)
  rw [hmul]
  omega

/-- Worklist of `ClosureQueryConfig::evaluate` (lines 202–214): pop the
queue front, visit all pool candidates from it, push the newly visited,
until the queue empties; returns the visited list. -/
def bfs_loop {α : Type} [DecidableEq α] (fs : List (α → α → Bool)) (pool : List α) :
    List α → List α → List α
  | [], visited => visited
  | current :: rest, visited =>
    bfs_loop fs pool (rest ++ visit_candidates fs current pool visited)
      (visited ++ visit_candidates fs current pool visited)
termination_by frontier visited => bfs_measure pool frontier visited
decreasing_by apply bfs_measure_decreases

/-- Seed loop of `ClosureQueryConfig::evaluate` (lines 196–200): insert
each root into `visited`, pushing it onto the queue iff newly inserted. -/
def insert_roots {α : Type} [DecidableEq α] : List α → List α → List α → List α × List α
  | [], visited, frontier => (visited, frontier)
  | o :: rest, visited, frontier =>
    if o ∈ visited then insert_roots rest visited frontier
    else insert_roots rest (visited ++ [o]) (frontier ++ [o])

theorem insert_roots_eq {α : Type} [DecidableEq α] :
    ∀ (roots visited frontier : List α), visited = frontier →
      (insert_roots roots visited frontier).1 = (insert_roots roots visited frontier).2 := by
  intro roots
  induction roots with
  | nil => intro visited frontier h; simpa [insert_roots] using h
  | cons o rest ih =>
    intro visited frontier h
    subst h
    simp only [insert_roots]
    split
    · exact ih _ _ rfl
    · exact ih _ _ rfl

theorem insert_roots_mem {α : Type} [DecidableEq α] :
    ∀ (roots visited frontier : List α) (a : α),
      a ∈ (insert_roots roots visited frontier).1 ↔ a ∈ visited ∨ a ∈ roots := by
  intro roots
  induction roots with
  | nil => intro visited frontier a; simp [insert_roots]
  | cons o rest ih =>
    intro visited frontier a
    simp only [insert_roots]
    by_cases hv : o ∈ visited
    · rw [if_pos hv, ih]
      constructor
      · rintro (h | h)
        · exact Or.inl h
        · exact Or.inr (List.mem_cons_of_mem _ h)
      · rintro (h | h)
        · exact Or.inl h
        · rcases List.mem_cons.mp h with h | h
          · exact Or.inl (h ▸ hv)
          · exact Or.inr h
    · rw [if_neg hv, ih]
      simp only [List.mem_append, List.mem_singleton, List.mem_cons]
      tauto

/-- Reachability through the candidate pool: seeds are reachable, and any
pool member connected by passing edge filters to a reachable object is
reachable.  This is the (unbounded-depth) closure the BFS computes. -/
inductive Reach {α : Type} (fs : List (α → α → Bool)) (pool roots : List α) : α → Prop
  | root {o : α} : o ∈ roots → Reach fs pool roots o
  | step {x c : α} : Reach fs pool roots x → c ∈ pool →
      matches_edge_filters fs x c = true → Reach fs pool roots c

theorem bfs_loop_mem_of_visited {α : Type} [DecidableEq α] (fs : List (α → α → Bool))
    (pool : List α) :
    ∀ (frontier visited : List α) (x : α), x ∈ visited →
      x ∈ bfs_loop fs pool frontier visited := by
  intro frontier visited
  induction frontier, visited using bfs_loop.induct fs pool with
  | case1 visited => intro x hx; simpa [bfs_loop] using hx
  | case2 current rest visited ih =>
    intro x hx
    rw [bfs_loop]
    exact ih x (List.mem_append_left _ hx)

theorem bfs_loop_sound {α : Type} [DecidableEq α] (fs : List (α → α → Bool))
    (pool : List α) (R : α → Prop)
    (hstep : ∀ x c, R x → c ∈ pool → matches_edge_filters fs x c = true → R c) :
    ∀ (frontier visited : List α),
      (∀ x ∈ frontier, x ∈ visited) → (∀ x ∈ visited, R x) →
      ∀ x ∈ bfs_loop fs pool frontier visited, R x := by
  intro frontier visited
  induction frontier, visited using bfs_loop.induct fs pool with
  | case1 visited =>
    intro _ hR x hx
    rw [bfs_loop] at hx
    exact hR x hx
  | case2 current rest visited ih =>
    intro hfv hR x hx
    rw [bfs_loop] at hx
    have hcur : R current := hR current (hfv current (List.mem_cons_self _ _))
    refine ih ?_ ?_ x hx
    · intro y hy
      rcases List.mem_append.mp hy with h | h
      · exact List.mem_append_left _ (hfv y (List.mem_cons_of_mem _ h))
      · exact List.mem_append_right _ h
    · intro y hy
      rcases List.mem_append.mp hy with h | h
      · exact hR y h
      · exact hstep current y hcur (visit_candidates_subset fs current pool visited y h)
          (visit_candidates_edge fs current pool visited y h)

/-- A result list is edge-closed when every passing edge from a member to a
pool candidate keeps the candidate inside the list. -/
def EdgeClosed {α : Type} (fs : List (α → α → Bool)) (pool res : List α) : Prop :=
  ∀ x ∈ res, ∀ c ∈ pool, matches_edge_filters fs x c = true → c ∈ res

theorem bfs_loop_closed {α : Type} [DecidableEq α] (fs : List (α → α → Bool))
    (pool : List α) :
    ∀ (frontier visited : List α),
      (∀ x ∈ frontier, x ∈ visited) →
      (∀ x ∈ visited, x ∉ frontier →
        ∀ c ∈ pool, matches_edge_filters fs x c = true → c ∈ visited) →
      EdgeClosed fs pool (bfs_loop fs pool frontier visited) := by
  intro frontier visited
  induction frontier, visited using bfs_loop.induct fs pool with
  | case1 visited =>
    intro _ hproc
    rw [bfs_loop]
    intro x hx c hc he
    exact hproc x hx (List.not_mem_nil x) c hc he
  | case2 current rest visited ih =>
    intro hfv hproc
    rw [bfs_loop]
    refine ih ?_ ?_
    · intro y hy
      rcases List.mem_append.mp hy with h | h
      · exact List.mem_append_left _ (hfv y (List.mem_cons_of_mem _ h))
      · exact List.mem_append_right _ h
    · intro x hx hnotin c hc he
      rcases List.mem_append.mp hx with hxv | hxA
      · by_cases hxc : x = current
        · subst hxc
          rcases visit_candidates_covers fs x pool visited c hc he with h | h
          · exact List.mem_append_left _ h
          · exact List.mem_append_right _ h
        · have hxrest : x ∉ rest := fun h => hnotin (List.mem_append_left _ h)
          have : x ∉ current :: rest := by
            intro h
            rcases List.mem_cons.mp h with h | h
            · exact hxc h
            · exact hxrest h
          exact List.mem_append_left _ (hproc x hxv this c hc he)
      · exact absurd (List.mem_append_right rest hxA) hnotin

/-- Order of query results (`QueryOrderBy` in query_config.hpp). -/
inductive QueryOrderBy
  | none
  | random
deriving DecidableEq

/-- `QuerySystem::apply_limits` (lines 74–87): optional shuffle with the
engine RNG (abstracted as the `shuffle` function), then truncation to
`max_items` when `max_items > 0` and the result is longer. -/
def apply_limits {α : Type} (results : List α) (max_items : Int) (ob : QueryOrderBy)
    (shuffle : List α → List α) : List α :=
  let r := if ob = QueryOrderBy.random then shuffle results else results
  if 0 < max_items ∧ max_items < (r.length : Int) then r.take max_items.toNat else r

/-- `ClosureQueryConfig` (query_config.hpp lines 49–56).  The `source` and
`candidates` sub-queries are abstracted to their evaluation results on the
current world.  The struct in the core header has no `radius` member; the
pybind layer (config/mettagrid_config.hpp line 147) exposes a `radius`
field on its `ClosureQueryConfig` binding, so the field is carried here —
the evaluator in query_system.cpp never reads it. -/
structure ClosureQueryConfig (α : Type) where
  source : List α
  candidates : List α
  edge_filters : List (α → α → Bool)
  result_filters : List (α → Bool)
  max_items : Int
  order_by : QueryOrderBy
  radius : Nat

/-- The visited set built by `ClosureQueryConfig::evaluate` (lines
190–220): seed insertion followed by the BFS worklist. -/
def closure_members {α : Type} [DecidableEq α] (cfg : ClosureQueryConfig α) : List α :=
  bfs_loop cfg.edge_filters cfg.candidates
    (insert_roots cfg.source [] []).2 (insert_roots cfg.source [] []).1

/-- `ClosureQueryConfig::evaluate` (lines 186–233): BFS closure of the
seeds through the candidate pool, then optional `result_filters`, then
`apply_limits`.  The C++ version iterates an `unordered_set` to produce
`result`, so only the membership of the returned list is specified. -/
def ClosureQueryConfig.evaluate {α : Type} [DecidableEq α] (cfg : ClosureQueryConfig α)
    (shuffle : List α → List α) : List α :=
  let visited := closure_members cfg
  let result := if cfg.result_filters.isEmpty then visited
    else visited.filter (fun o => matches_filters cfg.result_filters o)
  apply_limits result cfg.max_items cfg.order_by shuffle

theorem mem_closure_members_iff {α : Type} [DecidableEq α] (cfg : ClosureQueryConfig α)
    (a : α) :
    a ∈ closure_members cfg ↔ Reach cfg.edge_filters cfg.candidates cfg.source a := by
  have heq : (insert_roots cfg.source ([] : List α) []).1
      = (insert_roots cfg.source ([] : List α) []).2 :=
    insert_roots_eq cfg.source [] [] rfl
  have hmem0 : ∀ x : α, x ∈ (insert_roots cfg.source ([] : List α) []).1 ↔ x ∈ cfg.source := by
    intro x
    rw [insert_roots_mem]
    simp
  constructor
  · intro h
    refine bfs_loop_sound cfg.edge_filters cfg.candidates
      (Reach cfg.edge_filters cfg.candidates cfg.source)
      (fun x c hx hc he => Reach.step hx hc he) _ _ ?_ ?_ a h
    · intro x hx
      rw [heq]; exact hx
    · intro x hx
      exact Reach.root ((hmem0 x).mp hx)
  · intro h
    have hclosed : EdgeClosed cfg.edge_filters cfg.candidates (closure_members cfg) := by
      refine bfs_loop_closed cfg.edge_filters cfg.candidates _ _ ?_ ?_
      · intro x hx; rw [heq]; exact hx
      · intro x hx hnot
        exact absurd (heq ▸ hx) hnot
    induction h with
    | root hmem =>
      exact bfs_loop_mem_of_visited _ _ _ _ _ ((hmem0 _).mpr hmem)
    | step hx hc he ih =>
      exact hclosed _ ih _ hc he

/-- One frontier expansion over the pool: add every pool candidate not yet
reached that has a passing edge from some reached object. -/
def expand_once {α : Type} [DecidableEq α] (fs : List (α → α → Bool)) (pool : List α)
    (acc : List α) : List α :=
  acc ++ pool.filter (fun c => decide (c ∉ acc) && acc.any (fun x => matches_edge_filters fs x c))

/-- Objects reachable from the seeds in at most `n` edge-filter hops;
`reachable_within fs pool roots n` lists exactly the objects whose
shortest edge-filter-path distance from a seed is at most `n`. -/
def reachable_within {α : Type} [DecidableEq α] (fs : List (α → α → Bool))
    (pool roots : List α) : ℕ → List α
  | 0 => roots
  | n + 1 => expand_once fs pool (reachable_within fs pool roots n)

/-- Depth-indexed reachability: `ReachIn n o` holds when `o` is a seed or
can be reached from a seed in at most `n` hops through the pool. -/
def ReachIn {α : Type} (fs : List (α → α → Bool)) (pool roots : List α) : ℕ → α → Prop
  | 0, o => o ∈ roots
  | n + 1, o => ReachIn fs pool roots n o ∨
      (o ∈ pool ∧ ∃ x, ReachIn fs pool roots n x ∧ matches_edge_filters fs x o = true)

theorem mem_reachable_within_iff {α : Type} [DecidableEq α] (fs : List (α → α → Bool))
    (pool roots : List α) :
    ∀ (n : ℕ) (o : α), o ∈ reachable_within fs pool roots n ↔ ReachIn fs pool roots n o := by
  intro n
  induction n with
  | zero => intro o; simp [reachable_within, ReachIn]
  | succ n ih =>
    intro o
    simp only [reachable_within, ReachIn, expand_once, List.mem_append, List.mem_filter,
      Bool.and_eq_true, decide_eq_true_eq, List.any_eq_true]
    constructor
    · rintro (h | ⟨hpool, _, x, hx, he⟩)
      · exact Or.inl ((ih o).mp h)
      · exact Or.inr ⟨hpool, x, (ih x).mp hx, he⟩
    · rintro (h | ⟨hpool, x, hx, he⟩)
      · exact Or.inl ((ih o).mpr h)
      · by_cases hacc : o ∈ reachable_within fs pool roots n
        · exact Or.inl hacc
        · exact Or.inr ⟨hpool, hacc, x, (ih x).mpr hx, he⟩

theorem reach_iff_reachIn {α : Type} [DecidableEq α] (fs : List (α → α → Bool))
    (pool roots : List α) (o : α) :
    Reach fs pool roots o ↔ ∃ n, ReachIn fs pool roots n o := by
  constructor
  · intro h
    induction h with
    | root hmem => exact ⟨0, hmem⟩
    | step hx hc he ih =>
      rcases ih with ⟨n, hn⟩
      exact ⟨n + 1, Or.inr ⟨hc, _, hn, he⟩⟩
  · rintro ⟨n, hn⟩
    induction n generalizing o with
    | zero => exact Reach.root hn
    | succ n ih =>
      rcases hn with h | ⟨hpool, x, hx, he⟩
      · exact ih o h
      · exact Reach.step (ih x hx) hpool he

/-! ## AOE tracker (aoe_tracker.cpp)

Grid coordinates are embedded as `ℤ × ℤ` (the C++ code casts the
unsigned coordinates to `int` before arithmetic); the claims considered
here stay far from 32-bit overflow, so plain integers model the `int`
arithmetic. -/

/-- `distance_sq` (lines 16–20): squared L2 distance between two cells. -/
def distance_sq (a b : ℤ × ℤ) : ℤ :=
  |a.1 - b.1| * |a.1 - b.1| + |a.2 - b.2| * |a.2 - b.2|

/-- `AOEConfig` (core config): the fields read anywhere in
aoe_tracker.cpp.  Filter, mutation and presence-delta payloads are
abstract type parameters — registration only ever reads `radius`. -/
structure AOEConfig (F M P : Type) where
  radius : ℤ
  is_static : Bool
  effect_self : Bool
  controls_territory : Bool
  filters : List F
  mutations : List M
  presence_deltas : List P

/-- The `dr`/`dc` loop bounds of `AOETracker::register_fixed` (lines
173, 178): integers from `-range` to `range` inclusive (empty when
`range < 0`, matching the C++ loop). -/
def loop_offsets (range : ℤ) : List ℤ :=
  if range < 0 then []
  else (List.range (2 * range.toNat + 1)).map (fun i : ℕ => (i : ℤ) - range)

/-- Cell coverage computed by `AOETracker::register_fixed` (lines
164–190): every in-bounds cell whose squared distance from the source is
at most `range²` receives the source; nothing else is consulted. -/
def cells_in_radius (height width : ℕ) (src : ℤ × ℤ) (range : ℤ) : List (ℤ × ℤ) :=
  (loop_offsets range).flatMap (fun dr =>
    let cell_r := src.1 + dr
    if cell_r < 0 ∨ (height : ℤ) ≤ cell_r then []
    else (loop_offsets range).filterMap (fun dc =>
      let cell_c := src.2 + dc
      if cell_c < 0 ∨ (width : ℤ) ≤ cell_c then none
      else if range * range < dr * dr + dc * dc then none
      else some (cell_r, cell_c)))

/-- The list of cells `register_fixed` appends the new `AOESource` to,
for a static AOE config of a source object at `src`.  Only
`config.radius` is read; the mutation list, presence deltas and the
`controls_territory` flag play no part in registration. -/
def register_fixed_cells {F M P : Type} (height width : ℕ) (src : ℤ × ℤ)
    (config : AOEConfig F M P) : List (ℤ × ℤ) :=
  cells_in_radius height width src config.radius

theorem mem_loop_offsets {range d : ℤ} :
    d ∈ loop_offsets range ↔ -range ≤ d ∧ d ≤ range := by
  unfold loop_offsets
  split
  · rename_i h
    simp only [List.not_mem_nil, false_iff]
    omega
  · rename_i h
    push_neg at h
    constructor
    · intro hd
      rcases List.mem_map.mp hd with ⟨i, hi, hdi⟩
      rw [List.mem_range] at hi
      omega
    · intro ⟨h1, h2⟩
      refine List.mem_map.mpr ⟨(d + range).toNat, ?_, ?_⟩
      · rw [List.mem_range]
        omega
      · omega

theorem mem_cells_in_radius (height width : ℕ) (src : ℤ × ℤ) (range : ℤ)
    (hr : 0 ≤ range) (r c : ℤ) :
    (r, c) ∈ cells_in_radius height width src range ↔
      0 ≤ r ∧ r < (height : ℤ) ∧ 0 ≤ c ∧ c < (width : ℤ) ∧
      (r - src.1) * (r - src.1) + (c - src.2) * (c - src.2) ≤ range * range := by
  simp only [cells_in_radius, List.mem_flatMap]
  constructor
  · rintro ⟨dr, hdr, hmem⟩
    rw [mem_loop_offsets] at hdr
    split at hmem
    · exact absurd hmem (List.not_mem_nil _)
    · rename_i hrow
      push_neg at hrow
      rcases List.mem_filterMap.mp hmem with ⟨dc, hdc, hf⟩
      rw [mem_loop_offsets] at hdc
      split at hf
      · exact absurd hf (Option.noConfusion)
      · rename_i hcol
        push_neg at hcol
        split at hf
        · exact absurd hf (Option.noConfusion)
        · rename_i hdist
          push_neg at hdist
          injection hf with hf
          have hrr : r = src.1 + dr := (Prod.mk.injEq _ _ _ _ ▸ hf).1.symm
          have hcc : c = src.2 + dc := (Prod.mk.injEq _ _ _ _ ▸ hf).2.symm
          have h1 : r - src.1 = dr := by omega
          have h2 : c - src.2 = dc := by omega
          rw [h1, h2]
          refine ⟨by omega, by omega, by omega, by omega, hdist⟩
  · intro ⟨hr0, hrh, hc0, hcw, hdist⟩
    refine ⟨r - src.1, ?_, ?_⟩
    · rw [mem_loop_offsets]
      constructor
      · nlinarith [mul_self_nonneg (r - src.1 + range), mul_self_nonneg (c - src.2)]
      · nlinarith [mul_self_nonneg (r - src.1 - range), mul_self_nonneg (c - src.2)]
    · rw [if_neg (by push_neg; omega)]
      refine List.mem_filterMap.mpr ⟨c - src.2, ?_, ?_⟩
      · rw [mem_loop_offsets]
        constructor
        · nlinarith [mul_self_nonneg (c - src.2 + range), mul_self_nonneg (r - src.1)]
        · nlinarith [mul_self_nonneg (c - src.2 - range), mul_self_nonneg (r - src.1)]
      · rw [if_neg (by push_neg; omega), if_neg (by push_neg; linarith)]
        rw [show src.1 + (r - src.1) = r by ring, show src.2 + (c - src.2) = c by ring]

/-! ## Territory contest (aoe_tracker.cpp lines 22–71, 268–412) -/

/-- `std::numeric_limits<int>::max()`, the initial best key. -/
def kIntMax : ℤ := 2147483647

/-- `TerritoryContest` (lines 32–51). -/
structure TerritoryContest where
  friendly_present : Bool
  enemy_present : Bool
  friendly_best_key : ℤ
  enemy_best_key : ℤ
deriving DecidableEq

/-- Default-constructed contest (member initializers, lines 33–36). -/
def TerritoryContest.start : TerritoryContest :=
  { friendly_present := false, enemy_present := false,
    friendly_best_key := kIntMax, enemy_best_key := kIntMax }

/-- `TerritoryContest::consider` (lines 38–51). -/
def TerritoryContest.consider (c : TerritoryContest) (is_friendly : Bool) (key : ℤ) :
    TerritoryContest :=
  if is_friendly then
    { c with friendly_present := true,
             friendly_best_key :=
               if key < c.friendly_best_key then key else c.friendly_best_key }
  else
    { c with enemy_present := true,
             enemy_best_key := if key < c.enemy_best_key then key else c.enemy_best_key }

/-- `TerritoryOwner` (lines 26–30). -/
inductive TerritoryOwner
  | Neutral
  | Friendly
  | Enemy
deriving DecidableEq

/-- `TerritoryContest::owner` (lines 53–70). -/
def TerritoryContest.owner (c : TerritoryContest) : TerritoryOwner :=
  if c.friendly_present ∧ c.enemy_present then
    if c.friendly_best_key < c.enemy_best_key then TerritoryOwner.Friendly
    else if c.enemy_best_key < c.friendly_best_key then TerritoryOwner.Enemy
    else TerritoryOwner.Neutral
  else if c.friendly_present then TerritoryOwner.Friendly
  else if c.enemy_present then TerritoryOwner.Enemy
  else TerritoryOwner.Neutral

/-- Per-tick snapshot of one `AOESource` at the target's cell, as read by
`AOETracker::apply_fixed`.  `passes` abstracts
`passes_filters(&target, ctx)` on the tick's world snapshot; `is_self`
is `aoe_source->source == &target`; `collective` is the source object's
collective id (`nullptr` source objects do not occur once registered). -/
structure AOESourceState where
  collective : Option ℕ
  loc : ℤ × ℤ
  controls_territory : Bool
  effect_self : Bool
  is_self : Bool
  passes : Bool
  has_mutations : Bool
  has_presence_deltas : Bool
deriving DecidableEq

/-- Partition of the cell's sources (lines 300–316): friendly sources
share the target's collective id. -/
def friendly_sources (tc : Option ℕ) (cell : List AOESourceState) : List AOESourceState :=
  match tc with
  | Option.none => []
  | Option.some cid => cell.filter (fun s => s.collective = Option.some cid)

/-- Enemy sources belong to some other collective (lines 300–316). -/
def enemy_sources (tc : Option ℕ) (cell : List AOESourceState) : List AOESourceState :=
  match tc with
  | Option.none => []
  | Option.some cid =>
    cell.filter (fun s => s.collective.isSome ∧ s.collective ≠ Option.some cid)

/-- The guard of `consider_territory` (lines 336–349): territory flag,
source collective present, not a skipped self-effect, filters pass. -/
def territory_considered (s : AOESourceState) : Bool :=
  s.controls_territory && s.collective.isSome && !(!s.effect_self && s.is_self) && s.passes

/-- Folding `consider_territory` over the friendly then the enemy
partition (lines 354–359). -/
def build_contest (target_loc : ℤ × ℤ) (friendly enemy : List AOESourceState) :
    TerritoryContest :=
  let c1 := friendly.foldl (fun c s =>
    if territory_considered s then c.consider true (distance_sq s.loc target_loc) else c)
    TerritoryContest.start
  enemy.foldl (fun c s =>
    if territory_considered s then c.consider false (distance_sq s.loc target_loc) else c) c1

/-- The best key the contest would record for a partition: fold of
`min` (written as the code's comparison) over the considered sources'
squared distances, seeded with `int` max. -/
def contest_min_key (target_loc : ℤ × ℤ) (l : List AOESourceState) : ℤ :=
  (l.filter territory_considered).foldl
    (fun m s => if distance_sq s.loc target_loc < m then distance_sq s.loc target_loc else m)
    kIntMax

/-- The owner used by `apply_fixed` (line 362): the contest's owner when
the target has a collective, `Neutral` (collapse disabled) otherwise. -/
def apply_fixed_owner (tc : Option ℕ) (target_loc : ℤ × ℤ) (cell : List AOESourceState) :
    TerritoryOwner :=
  match tc with
  | Option.none => TerritoryOwner.Neutral
  | Option.some _ =>
    (build_contest target_loc (friendly_sources tc cell) (enemy_sources tc cell)).owner

/-- Whether `process_source` (lines 364–399) runs the source's mutation
chain against the target, given the target's collective and the computed
territory owner. -/
def mutation_chain_runs (tc : Option ℕ) (owner : TerritoryOwner) (s : AOESourceState) :
    Bool :=
  if !s.has_mutations && !s.has_presence_deltas then false
  else
    let skip_self := !s.effect_self && s.is_self
    let now_passes := !skip_self && s.passes
    let effective_passes :=
      if tc.isSome && s.controls_territory then
        match s.collective with
        | Option.none => false
        | Option.some cid =>
          now_passes && decide ((owner = TerritoryOwner.Friendly ∧ tc = Option.some cid) ∨
            (owner = TerritoryOwner.Enemy ∧ tc ≠ Option.some cid))
      else now_passes
    effective_passes && s.has_mutations

/-- `process_source` with no territory arbitration at all (the branch at
lines 373–383 removed): an ordinary AOE runs its mutations iff it is not
a skipped self-effect and its filters pass. -/
def mutation_chain_runs_plain (s : AOESourceState) : Bool :=
  if !s.has_mutations && !s.has_presence_deltas then false
  else (!(!s.effect_self && s.is_self) && s.passes) && s.has_mutations

theorem fold_consider_true (tl : ℤ × ℤ) :
    ∀ (l : List AOESourceState) (c : TerritoryContest),
      (l.foldl (fun c s =>
          if territory_considered s then c.consider true (distance_sq s.loc tl) else c) c)
        = { friendly_present :=
              c.friendly_present || !(l.filter territory_considered).isEmpty,
            enemy_present := c.enemy_present,
            friendly_best_key := (l.filter territory_considered).foldl
              (fun m s => if distance_sq s.loc tl < m then distance_sq s.loc tl else m)
              c.friendly_best_key,
            enemy_best_key := c.enemy_best_key } := by
  intro l
  induction l with
  | nil => intro c; simp
  | cons s rest ih =>
    intro c
    rw [List.foldl_cons]
    by_cases hs : territory_considered s
    · rw [if_pos hs]
      rw [ih]
      simp [TerritoryContest.consider, List.filter_cons, hs]
    · rw [if_neg hs]
      rw [ih]
      simp [List.filter_cons, hs]

theorem fold_consider_false (tl : ℤ × ℤ) :
    ∀ (l : List AOESourceState) (c : TerritoryContest),
      (l.foldl (fun c s =>
          if territory_considered s then c.consider false (distance_sq s.loc tl) else c) c)
        = { friendly_present := c.friendly_present,
            enemy_present := c.enemy_present || !(l.filter territory_considered).isEmpty,
            friendly_best_key := c.friendly_best_key,
            enemy_best_key := (l.filter territory_considered).foldl
              (fun m s => if distance_sq s.loc tl < m then distance_sq s.loc tl else m)
              c.enemy_best_key } := by
  intro l
  induction l with
  | nil => intro c; simp
  | cons s rest ih =>
    intro c
    rw [List.foldl_cons]
    by_cases hs : territory_considered s
    · rw [if_pos hs]
      rw [ih]
      simp [TerritoryContest.consider, List.filter_cons, hs]
    · rw [if_neg hs]
      rw [ih]
      simp [List.filter_cons, hs]

theorem build_contest_spec (tl : ℤ × ℤ) (F E : List AOESourceState) :
    build_contest tl F E
      = { friendly_present := !(F.filter territory_considered).isEmpty,
          enemy_present := !(E.filter territory_considered).isEmpty,
          friendly_best_key := contest_min_key tl F,
          enemy_best_key := contest_min_key tl E } := by
  rw [build_contest]
  rw [fold_consider_false, fold_consider_true]
  simp [TerritoryContest.start, contest_min_key]

/-! ## Observation token accounting (mettagrid_c.cpp)

Both observation encoders maintain `attempted_tokens_written` (every
token any emission step tried to write) and
`tokens_written = min(attempted, capacity)`; at the end (lines 672–674
and 825–827) they add `tokens_written`, `tokens_dropped = attempted -
written` and `tokens_free_space = capacity - written` to the stats.  The
encoding pass is abstracted to the list of per-step attempted token
counts. -/

structure ObsAccounting where
  attempted_tokens_written : ℕ
  tokens_written : ℕ
deriving DecidableEq

/-- One emission step: `attempted += k; written = min(attempted, capacity)`
(e.g. lines 621–624, 663–668). -/
def obs_emit (capacity : ℕ) (st : ObsAccounting) (k : ℕ) : ObsAccounting :=
  let attempted := st.attempted_tokens_written + k
  { attempted_tokens_written := attempted, tokens_written := min attempted capacity }

/-- A whole encoding pass: both counters start at 0 (lines 558–559). -/
def obs_encode (capacity : ℕ) (ks : List ℕ) : ObsAccounting :=
  ks.foldl (obs_emit capacity) { attempted_tokens_written := 0, tokens_written := 0 }

/-- `tokens_dropped` stat (line 673): `attempted - written`. -/
def tokens_dropped (st : ObsAccounting) : ℕ :=
  st.attempted_tokens_written - st.tokens_written

/-- `tokens_free_space` stat (line 674): `capacity - written`. -/
def tokens_free_space (capacity : ℕ) (st : ObsAccounting) : ℕ :=
  capacity - st.tokens_written

theorem obs_encode_written (capacity : ℕ) (ks : List ℕ) :
    (obs_encode capacity ks).tokens_written
      = min (obs_encode capacity ks).attempted_tokens_written capacity := by
  rw [obs_encode]
  generalize hst : ({ attempted_tokens_written := 0, tokens_written := 0 } : ObsAccounting) = st
  have h0 : st.tokens_written = min st.attempted_tokens_written capacity := by
    rw [← hst]; simp
  clear hst
  induction ks generalizing st with
  | nil => simpa using h0
  | cons k rest ih =>
    rw [List.foldl_cons]
    exact ih (obs_emit capacity st k) rfl

/-! ## Inventory and `ResourceDeltaMutation` (resource_mutation.hpp,
handler_context.hpp, aoe_tracker.cpp lines 268–277 and 414–427) -/

/-- Recursive association-list lookup (models `std::unordered_map::find` /
`std::map` style lookup on our list representation). -/
def assocLookup {β : Type} : List (ℕ × β) → ℕ → Option β
  | [], _ => Option.none
  | p :: l, r => if p.1 = r then Option.some p.2 else assocLookup l r

/-- Modelled from the spec: `has_inventory.hpp` is absent from the source
tree (only its callers are present).  Per spec §3, an inventory maps
`resource_id → quantity` with per-resource limits and modifier flags, and
updates are clamped against the limits (and against zero from below,
since quantities are non-negative).  Stored entries hold positive
quantities (grid_object.cpp `obs_features` asserts `amount > 0`); a
resource absent from `limits` is unlimited. -/
structure Inventory where
  items : List (ℕ × ℕ)
  limits : List (ℕ × ℕ)
  modifiers : List ℕ
deriving DecidableEq

/-- Current quantity of a resource (0 when absent). -/
def Inventory.amount (inv : Inventory) (r : ℕ) : ℕ :=
  (assocLookup inv.items r).getD 0

/-- `InventoryConfig` modifier flag for a resource. -/
def Inventory.is_modifier (inv : Inventory) (r : ℕ) : Bool :=
  decide (r ∈ inv.modifiers)

/-- Clamp a tentative signed quantity into `[0, limit r]`. -/
def Inventory.clampQty (inv : Inventory) (r : ℕ) (q : ℤ) : ℕ :=
  match assocLookup inv.limits r with
  | Option.some limit => (min (max q 0) (limit : ℤ)).toNat
  | Option.none => (max q 0).toNat

/-- Store quantity `q` for resource `r`: drop the entry at 0, replace in
place when present, append when absent. -/
def setItems (items : List (ℕ × ℕ)) (r q : ℕ) : List (ℕ × ℕ) :=
  if q = 0 then items.filter (fun p => !decide (p.1 = r))
  else if items.any (fun p => decide (p.1 = r)) then
    items.map (fun p => if p.1 = r then (r, q) else p)
  else items ++ [(r, q)]

/-- `inventory.update(resource_id, delta)`: clamped add. -/
def Inventory.update (inv : Inventory) (r : ℕ) (d : ℤ) : Inventory :=
  { inv with items := setItems inv.items r (inv.clampQty r ((inv.amount r : ℤ) + d)) }

/-- Well-formed inventory: one entry per resource, positive stored
quantities, quantities within limits. -/
def Inventory.WF (inv : Inventory) : Prop :=
  (inv.items.map Prod.fst).Nodup ∧
  (∀ p ∈ inv.items, p.2 ≠ 0) ∧
  (∀ p ∈ inv.items, ∀ limit, assocLookup inv.limits p.1 = Option.some limit → p.2 ≤ limit)

instance (inv : Inventory) : Decidable inv.WF := by
  unfold Inventory.WF
  infer_instance

/-- `EntityRef` (handler_config.hpp), as consumed by
`HandlerContext::resolve_inventory`. -/
inductive EntityRef
  | actor
  | target
  | actor_collective
  | target_collective
deriving DecidableEq

/-- `ResourceDeltaMutationConfig`. -/
structure ResourceDeltaMutationConfig where
  entity : EntityRef
  resource_id : ℕ
  delta : ℤ
deriving DecidableEq

/-- The deferred accumulator triple installed by `AOETracker::apply_fixed`
(lines 272–277): net-delta map, first-seen order vector, seen set. -/
structure DeferredAcc where
  deltas : List (ℕ × ℤ)
  order : List ℕ
  seen : List ℕ
deriving DecidableEq

def emptyDeferredAcc : DeferredAcc :=
  { deltas := [], order := [], seen := [] }

/-- `deltas[r] += d` on the association list (`operator[]` inserts 0 when
absent, then adds). -/
def addAssocDelta : List (ℕ × ℤ) → ℕ → ℤ → List (ℕ × ℤ)
  | [], r, d => [(r, d)]
  | p :: l, r, d => if p.1 = r then (p.1, p.2 + d) :: l else p :: addAssocDelta l r d

/-- The deferred branch of `ResourceDeltaMutation::apply` (lines 31–39):
push `r` to `order` iff newly inserted into `seen`, then accumulate. -/
def DeferredAcc.add (acc : DeferredAcc) (r : ℕ) (d : ℤ) : DeferredAcc :=
  { deltas := addAssocDelta acc.deltas r d,
    order := if r ∈ acc.seen then acc.order else acc.order ++ [r],
    seen := if r ∈ acc.seen then acc.seen else acc.seen ++ [r] }

/-- The slice of `HandlerContext` that `ResourceDeltaMutation::apply`
touches: the four resolvable inventories (all resolutions are assumed to
succeed, as asserted in the C++) and the optional deferred accumulator. -/
structure HandlerCtxState where
  actorInv : Inventory
  targetInv : Inventory
  actorCollInv : Inventory
  targetCollInv : Inventory
  deferred : Option DeferredAcc
deriving DecidableEq

/-- `ctx.resolve_inventory(ref)`. -/
def HandlerCtxState.getInv (st : HandlerCtxState) : EntityRef → Inventory
  | EntityRef.actor => st.actorInv
  | EntityRef.target => st.targetInv
  | EntityRef.actor_collective => st.actorCollInv
  | EntityRef.target_collective => st.targetCollInv

def HandlerCtxState.setInv (st : HandlerCtxState) : EntityRef → Inventory → HandlerCtxState
  | EntityRef.actor, inv => { st with actorInv := inv }
  | EntityRef.target, inv => { st with targetInv := inv }
  | EntityRef.actor_collective, inv => { st with actorCollInv := inv }
  | EntityRef.target_collective, inv => { st with targetCollInv := inv }

/-- The four inventories of a context state (used to compare states
modulo the accumulator). -/
def HandlerCtxState.invs (st : HandlerCtxState) :
    Inventory × Inventory × Inventory × Inventory :=
  (st.actorInv, st.targetInv, st.actorCollInv, st.targetCollInv)

/-- `ResourceDeltaMutation::apply` (resource_mutation.hpp lines 24–46):
with an accumulator attached, a delta on the *target* entity for a
non-modifier resource is accumulated and the inventories are left alone;
every other case resolves the entity and updates its inventory
immediately.  (`ctx.target` is always non-null here: `apply_fixed` sets
it to the agent.) -/
def resource_delta_apply (cfg : ResourceDeltaMutationConfig) (st : HandlerCtxState) :
    HandlerCtxState :=
  match st.deferred with
  | Option.some acc =>
    if cfg.entity = EntityRef.target ∧ st.targetInv.is_modifier cfg.resource_id = false then
      { st with deferred := Option.some (acc.add cfg.resource_id cfg.delta) }
    else st.setInv cfg.entity ((st.getInv cfg.entity).update cfg.resource_id cfg.delta)
  | Option.none => st.setInv cfg.entity ((st.getInv cfg.entity).update cfg.resource_id cfg.delta)

/-- A sequence of `ResourceDeltaMutation`s applied in order (the mutation
chains run during one `apply_fixed` call, restricted to the resource-delta
mutations, which are the only ones that touch the accumulator). -/
def apply_resource_deltas (cfgs : List ResourceDeltaMutationConfig) (st : HandlerCtxState) :
    HandlerCtxState :=
  cfgs.foldl (fun s c => resource_delta_apply c s) st

/-- The flush at the end of `AOETracker::apply_fixed` (lines 414–427):
walk `order`, look the resource up in the net-delta map, apply a non-zero
net delta to the target's inventory. -/
def flush_deferred (st : HandlerCtxState) : HandlerCtxState :=
  match st.deferred with
  | Option.none => st
  | Option.some acc =>
    if acc.order.isEmpty then st
    else acc.order.foldl (fun s r =>
      match assocLookup acc.deltas r with
      | Option.none => s
      | Option.some d =>
        if d ≠ 0 then { s with targetInv := s.targetInv.update r d } else s) st

/-- Whether `apply` defers this mutation: target entity, non-modifier
resource (judged against the target inventory's modifier flags, which no
resource update changes). -/
def deferred_eligible (mods : List ℕ) (cfg : ResourceDeltaMutationConfig) : Bool :=
  decide (cfg.entity = EntityRef.target) && !decide (cfg.resource_id ∈ mods)

/-- First-seen order of a resource-id list (what `order` accumulates). -/
def fs_aux (seen : List ℕ) : List ℕ → List ℕ
  | [] => []
  | r :: l => if r ∈ seen then fs_aux seen l else r :: fs_aux (seen ++ [r]) l

/-- Sum of the deltas a config list carries for one resource. -/
def net_sum (el : List ResourceDeltaMutationConfig) (r : ℕ) : ℤ :=
  ((el.filter (fun c => decide (c.resource_id = r))).map (fun c => c.delta)).sum

theorem assocLookup_eq_none {β : Type} :
    ∀ (l : List (ℕ × β)) (r : ℕ), assocLookup l r = Option.none ↔ ∀ p ∈ l, p.1 ≠ r := by
  intro l r
  induction l with
  | nil => simp [assocLookup]
  | cons p l ih =>
    simp only [assocLookup]
    by_cases hp : p.1 = r
    · constructor
      · intro h
        rw [if_pos hp] at h
        exact absurd h (by simp)
      · intro h
        exact absurd hp (h p (List.mem_cons_self _ _))
    · simp only [if_neg hp, ih, List.mem_cons]
      constructor
      · rintro h q (rfl | hq)
        · exact hp
        · exact h q hq
      · intro h q hq
        exact h q (Or.inr hq)

theorem assocLookup_mem {β : Type} :
    ∀ (l : List (ℕ × β)) (r : ℕ) (v : β), assocLookup l r = Option.some v → (r, v) ∈ l := by
  intro l r v
  induction l with
  | nil => intro h; simp [assocLookup] at h
  | cons p l ih =>
    intro h
    simp only [assocLookup] at h
    by_cases hp : p.1 = r
    · rw [if_pos hp] at h
      injection h with h
      rcases p with ⟨p1, p2⟩
      simp only at hp h
      subst hp
      subst h
      exact List.mem_cons_self _ _
    · rw [if_neg hp] at h
      exact List.mem_cons_of_mem _ (ih h)

theorem assocLookup_addAssocDelta (l : List (ℕ × ℤ)) (r : ℕ) (d : ℤ) (x : ℕ) :
    assocLookup (addAssocDelta l r d) x =
      if x = r then Option.some ((assocLookup l r).getD 0 + d) else assocLookup l x := by
  induction l with
  | nil =>
    by_cases hx : x = r
    · subst hx
      simp [addAssocDelta, assocLookup]
    · have hrx : ¬r = x := fun h => hx h.symm
      simp [addAssocDelta, assocLookup, hx, hrx]
  | cons p l ih =>
    by_cases hp : p.1 = r
    · by_cases hx : x = r
      · subst hx
        simp [addAssocDelta, assocLookup, hp]
      · have hpx : ¬p.1 = x := by omega
        have hrx : ¬r = x := by omega
        simp [addAssocDelta, assocLookup, hp, hx, hpx, hrx]
    · by_cases hpx : p.1 = x
      · have hx : ¬x = r := by omega
        simp [addAssocDelta, assocLookup, hp, hpx, hx]
      · simp [addAssocDelta, assocLookup, hp, hpx, ih]

theorem update_modifiers (inv : Inventory) (r : ℕ) (d : ℤ) :
    (inv.update r d).modifiers = inv.modifiers := rfl

theorem update_limits (inv : Inventory) (r : ℕ) (d : ℤ) :
    (inv.update r d).limits = inv.limits := rfl

theorem clampQty_le (inv : Inventory) (r : ℕ) (q : ℤ) (limit : ℕ)
    (h : assocLookup inv.limits r = Option.some limit) : inv.clampQty r q ≤ limit := by
  rw [Inventory.clampQty, h]
  show (min (max q 0) ((limit : ℕ) : ℤ)).toNat ≤ limit
  omega

theorem clampQty_of_fit (inv : Inventory) (r : ℕ) (v : ℕ)
    (hle : ∀ limit, assocLookup inv.limits r = Option.some limit → v ≤ limit) :
    inv.clampQty r (v : ℤ) = v := by
  rw [Inventory.clampQty]
  cases hlim : assocLookup inv.limits r with
  | none =>
    show (max ((v : ℕ) : ℤ) 0).toNat = v
    omega
  | some limit =>
    have := hle limit hlim
    show (min (max ((v : ℕ) : ℤ) 0) ((limit : ℕ) : ℤ)).toNat = v
    omega

theorem map_replace_of_absent (l : List (ℕ × ℕ)) (r q : ℕ)
    (h : ∀ p ∈ l, p.1 ≠ r) :
    l.map (fun p => if p.1 = r then (r, q) else p) = l := by
  induction l with
  | nil => rfl
  | cons p l ih =>
    rw [List.map_cons, if_neg (h p (List.mem_cons_self _ _)), ih]
    intro p hp
    exact h p (List.mem_cons_of_mem _ hp)

theorem map_replace_self (l : List (ℕ × ℕ)) (r v : ℕ)
    (hnd : (l.map Prod.fst).Nodup) (hl : assocLookup l r = Option.some v) :
    l.map (fun p => if p.1 = r then (r, v) else p) = l := by
  induction l with
  | nil => rfl
  | cons p l ih =>
    rw [List.map_cons, List.nodup_cons] at hnd
    simp only [assocLookup] at hl
    by_cases hp : p.1 = r
    · rw [if_pos hp] at hl
      injection hl with hl
      rw [List.map_cons, if_pos hp]
      have habs : ∀ x ∈ l, x.1 ≠ r := by
        intro x hx hxr
        apply hnd.1
        rw [hp, ← hxr]
        exact List.mem_map_of_mem Prod.fst hx
      rw [map_replace_of_absent l r v habs]
      congr 1
      rcases p with ⟨p1, p2⟩
      simp only at hp hl
      rw [← hp, ← hl]
    · rw [if_neg hp] at hl
      rw [List.map_cons, if_neg hp, ih hnd.2 hl]

theorem update_zero (inv : Inventory) (r : ℕ) (h : inv.WF) : inv.update r 0 = inv := by
  obtain ⟨hnd, hpos, hlim⟩ := h
  rw [Inventory.update]
  cases hit : assocLookup inv.items r with
  | none =>
    have hz : inv.amount r = 0 := by rw [Inventory.amount, hit]; rfl
    have hq : inv.clampQty r ((inv.amount r : ℤ) + 0) = 0 := by
      rw [hz]
      rw [Inventory.clampQty]
      cases hlk : assocLookup inv.limits r with
      | none =>
        show (max (((0 : ℕ) : ℤ) + 0) 0).toNat = 0
        omega
      | some limit =>
        show (min (max (((0 : ℕ) : ℤ) + 0) 0) ((limit : ℕ) : ℤ)).toNat = 0
        omega
    rw [hq]
    have habs : ∀ p ∈ inv.items, p.1 ≠ r := (assocLookup_eq_none inv.items r).mp hit
    rcases inv with ⟨items, limits, modifiers⟩
    simp only [setItems, if_pos rfl]
    congr 1
    refine List.filter_eq_self.mpr ?_
    intro p hp
    simpa using habs p hp
  | some v =>
    have hmem : (r, v) ∈ inv.items := assocLookup_mem inv.items r v hit
    have hv : inv.amount r = v := by rw [Inventory.amount, hit]; rfl
    have hvpos : v ≠ 0 := hpos (r, v) hmem
    have hq : inv.clampQty r ((inv.amount r : ℤ) + 0) = v := by
      rw [hv, add_zero]
      exact clampQty_of_fit inv r v (fun limit hlook => hlim (r, v) hmem limit hlook)
    rw [hq]
    have hany : inv.items.any (fun p => decide (p.1 = r)) = true := by
      rw [List.any_eq_true]
      exact ⟨(r, v), hmem, by simp⟩
    rcases inv with ⟨items, limits, modifiers⟩
    simp only [setItems, if_neg hvpos, hany, if_pos]
    congr 1
    exact map_replace_self items r v hnd hit

theorem update_WF (inv : Inventory) (r : ℕ) (d : ℤ) (h : inv.WF) : (inv.update r d).WF := by
  obtain ⟨hnd, hpos, hlim⟩ := h
  set q := inv.clampQty r ((inv.amount r : ℤ) + d) with hqdef
  have hqle : ∀ limit, assocLookup inv.limits r = Option.some limit → q ≤ limit := by
    intro limit hlook
    rw [hqdef]
    exact clampQty_le inv r _ limit hlook
  have hupd : (inv.update r d).items = setItems inv.items r q := rfl
  have hml : (inv.update r d).limits = inv.limits := rfl
  by_cases hq0 : q = 0
  · have hset : setItems inv.items r q = inv.items.filter (fun p => !decide (p.1 = r)) := by
      rw [setItems, if_pos hq0]
    refine ⟨?_, ?_, ?_⟩
    · rw [hupd, hset]
      exact List.Nodup.sublist (List.Sublist.map Prod.fst (List.filter_sublist _)) hnd
    · rw [hupd, hset]
      intro p hp
      exact hpos p (List.mem_of_mem_filter hp)
    · rw [hupd, hset, hml]
      intro p hp limit hlook
      exact hlim p (List.mem_of_mem_filter hp) limit hlook
  · by_cases hany : inv.items.any (fun p => decide (p.1 = r)) = true
    · have hset : setItems inv.items r q
          = inv.items.map (fun p => if p.1 = r then (r, q) else p) := by
        rw [setItems, if_neg hq0, if_pos hany]
      refine ⟨?_, ?_, ?_⟩
      · rw [hupd, hset]
        have hkeys : (inv.items.map (fun p => if p.1 = r then (r, q) else p)).map Prod.fst
            = inv.items.map Prod.fst := by
          rw [List.map_map]
          refine List.map_congr_left ?_
          intro p _
          by_cases hp : p.1 = r
          · simp [hp]
          · simp [hp]
        rw [hkeys]
        exact hnd
      · rw [hupd, hset]
        intro p hp
        rcases List.mem_map.mp hp with ⟨p0, hp0, rfl⟩
        by_cases hp0r : p0.1 = r
        · rw [if_pos hp0r]
          simpa using hq0
        · rw [if_neg hp0r]
          exact hpos p0 hp0
      · rw [hupd, hset, hml]
        intro p hp limit hlook
        rcases List.mem_map.mp hp with ⟨p0, hp0, rfl⟩
        by_cases hp0r : p0.1 = r
        · rw [if_pos hp0r] at hlook ⊢
          exact hqle limit (by simpa using hlook)
        · rw [if_neg hp0r] at hlook ⊢
          exact hlim p0 hp0 limit hlook
    · have hset : setItems inv.items r q = inv.items ++ [(r, q)] := by
        rw [setItems, if_neg hq0, if_neg hany]
      have hnotin : ∀ p ∈ inv.items, p.1 ≠ r := by
        intro p hp hpr
        exact hany (List.any_eq_true.mpr ⟨p, hp, by simp [hpr]⟩)
      refine ⟨?_, ?_, ?_⟩
      · rw [hupd, hset, List.map_append]
        simp only [List.map_cons, List.map_nil]
        rw [List.nodup_append]
        refine ⟨hnd, by simp, ?_⟩
        intro x hx
        simp only [List.mem_singleton]
        intro hxr
        rcases List.mem_map.mp hx with ⟨p, hp, rfl⟩
        exact hnotin p hp hxr
      · rw [hupd, hset]
        intro p hp
        rcases List.mem_append.mp hp with hp | hp
        · exact hpos p hp
        · rcases List.mem_singleton.mp hp with rfl
          simpa using hq0
      · rw [hupd, hset, hml]
        intro p hp limit hlook
        rcases List.mem_append.mp hp with hp | hp
        · exact hlim p hp limit hlook
        · rcases List.mem_singleton.mp hp with rfl
          exact hqle limit (by simpa using hlook)

/-- Folding the deferred branch over the mutations that take it. -/
def accFold (acc : DeferredAcc) (el : List ResourceDeltaMutationConfig) : DeferredAcc :=
  el.foldl (fun a c => a.add c.resource_id c.delta) acc

theorem mem_fs_aux : ∀ (l seen : List ℕ) (x : ℕ),
    x ∈ fs_aux seen l ↔ x ∈ l ∧ x ∉ seen := by
  intro l
  induction l with
  | nil => intro seen x; simp [fs_aux]
  | cons r rest ih =>
    intro seen x
    simp only [fs_aux]
    by_cases hr : r ∈ seen
    · rw [if_pos hr, ih]
      simp only [List.mem_cons]
      constructor
      · rintro ⟨h1, h2⟩
        exact ⟨Or.inr h1, h2⟩
      · rintro ⟨h1 | h1, h2⟩
        · exact absurd (h1 ▸ hr) h2
        · exact ⟨h1, h2⟩
    · rw [if_neg hr]
      simp only [List.mem_cons, ih, List.mem_append, List.mem_singleton]
      constructor
      · rintro (rfl | ⟨h1, h2⟩)
        · exact ⟨Or.inl rfl, hr⟩
        · exact ⟨Or.inr h1, fun hx => h2 (Or.inl hx)⟩
      · rintro ⟨rfl | h1, h2⟩
        · exact Or.inl rfl
        · by_cases hxr : x = r
          · exact Or.inl hxr
          · exact Or.inr ⟨h1, fun hx =>
              hx.elim h2 (fun hm => hm.elim hxr (fun h0 => List.not_mem_nil x h0))⟩

theorem fs_aux_nodup : ∀ (l seen : List ℕ), (fs_aux seen l).Nodup := by
  intro l
  induction l with
  | nil => intro seen; simp [fs_aux]
  | cons r rest ih =>
    intro seen
    simp only [fs_aux]
    by_cases hr : r ∈ seen
    · rw [if_pos hr]; exact ih seen
    · rw [if_neg hr]
      refine List.nodup_cons.mpr ⟨?_, ih _⟩
      intro hmem
      exact ((mem_fs_aux rest (seen ++ [r]) r).mp hmem).2
        (List.mem_append_right _ (List.mem_singleton.mpr rfl))

theorem accFold_order_seen : ∀ (el : List ResourceDeltaMutationConfig) (acc : DeferredAcc),
    (accFold acc el).order = acc.order ++ fs_aux acc.seen (el.map (fun c => c.resource_id)) ∧
    (accFold acc el).seen = acc.seen ++ fs_aux acc.seen (el.map (fun c => c.resource_id)) := by
  intro el
  induction el with
  | nil => intro acc; simp [accFold, fs_aux]
  | cons c rest ih =>
    intro acc
    have hstep : accFold acc (c :: rest) = accFold (acc.add c.resource_id c.delta) rest := rfl
    rw [hstep]
    rcases ih (acc.add c.resource_id c.delta) with ⟨ho, hs⟩
    by_cases hr : c.resource_id ∈ acc.seen
    · have hadd : acc.add c.resource_id c.delta
          = { deltas := addAssocDelta acc.deltas c.resource_id c.delta,
              order := acc.order, seen := acc.seen } := by
        rw [DeferredAcc.add]
        simp [hr]
      rw [hadd] at ho hs ⊢
      refine ⟨?_, ?_⟩
      · rw [ho]
        simp only [List.map_cons, fs_aux, if_pos hr]
      · rw [hs]
        simp only [List.map_cons, fs_aux, if_pos hr]
    · have hadd : acc.add c.resource_id c.delta
          = { deltas := addAssocDelta acc.deltas c.resource_id c.delta,
              order := acc.order ++ [c.resource_id], seen := acc.seen ++ [c.resource_id] } := by
        rw [DeferredAcc.add]
        simp [hr]
      rw [hadd] at ho hs ⊢
      refine ⟨?_, ?_⟩
      · rw [ho]
        simp only [List.map_cons, fs_aux, if_neg hr, List.append_assoc, List.singleton_append]
      · rw [hs]
        simp only [List.map_cons, fs_aux, if_neg hr, List.append_assoc, List.singleton_append]

theorem net_sum_cons (c : ResourceDeltaMutationConfig) (rest : List ResourceDeltaMutationConfig)
    (x : ℕ) :
    net_sum (c :: rest) x
      = (if c.resource_id = x then c.delta else 0) + net_sum rest x := by
  rw [net_sum, net_sum, List.filter_cons]
  by_cases hc : c.resource_id = x
  · simp [hc]
  · simp [hc]

theorem net_sum_of_not_mem (el : List ResourceDeltaMutationConfig) (x : ℕ)
    (h : x ∉ el.map (fun c => c.resource_id)) : net_sum el x = 0 := by
  induction el with
  | nil => rfl
  | cons c rest ih =>
    rw [net_sum_cons]
    simp only [List.map_cons, List.mem_cons] at h
    push_neg at h
    have hcx : ¬c.resource_id = x := fun hh => h.1 hh.symm
    rw [if_neg hcx, ih h.2]
    simp

theorem accFold_deltas : ∀ (el : List ResourceDeltaMutationConfig) (acc : DeferredAcc) (x : ℕ),
    assocLookup (accFold acc el).deltas x
      = if x ∈ el.map (fun c => c.resource_id) then
          Option.some ((assocLookup acc.deltas x).getD 0 + net_sum el x)
        else assocLookup acc.deltas x := by
  intro el
  induction el with
  | nil => intro acc x; simp [accFold, net_sum]
  | cons c rest ih =>
    intro acc x
    have hstep : accFold acc (c :: rest) = accFold (acc.add c.resource_id c.delta) rest := rfl
    rw [hstep, ih]
    have hadd : (acc.add c.resource_id c.delta).deltas
        = addAssocDelta acc.deltas c.resource_id c.delta := rfl
    rw [hadd, assocLookup_addAssocDelta, net_sum_cons]
    simp only [List.map_cons, List.mem_cons]
    by_cases hx : x = c.resource_id
    · by_cases hmem : c.resource_id ∈ rest.map (fun c => c.resource_id)
      · rw [hx]
        simp [hmem, add_assoc]
      · rw [hx]
        simp [hmem, net_sum_of_not_mem rest c.resource_id hmem]
    · have hcx : ¬c.resource_id = x := fun hh => hx hh.symm
      by_cases hmem : x ∈ rest.map (fun c => c.resource_id)
      · simp [hx, hcx, hmem]
      · simp [hx, hcx, hmem]

theorem deferred_eligible_iff (mods : List ℕ) (cfg : ResourceDeltaMutationConfig) :
    deferred_eligible mods cfg = true ↔
      (cfg.entity = EntityRef.target ∧ decide (cfg.resource_id ∈ mods) = false) := by
  simp [deferred_eligible]

theorem setInv_deferred (st : HandlerCtxState) (e : EntityRef) (inv : Inventory) :
    (st.setInv e inv).deferred = st.deferred := by
  cases e <;> rfl

theorem resource_delta_apply_deferred_branch (cfg : ResourceDeltaMutationConfig)
    (st : HandlerCtxState) (acc : DeferredAcc) (hd : st.deferred = Option.some acc)
    (he : deferred_eligible st.targetInv.modifiers cfg = true) :
    resource_delta_apply cfg st
      = { st with deferred := Option.some (acc.add cfg.resource_id cfg.delta) } := by
  rcases (deferred_eligible_iff _ _).mp he with ⟨h1, h2⟩
  have hcond : cfg.entity = EntityRef.target ∧ st.targetInv.is_modifier cfg.resource_id = false :=
    ⟨h1, h2⟩
  simp only [resource_delta_apply, hd, if_pos hcond]

theorem resource_delta_apply_immediate (cfg : ResourceDeltaMutationConfig)
    (st : HandlerCtxState) (acc : DeferredAcc) (hd : st.deferred = Option.some acc)
    (he : deferred_eligible st.targetInv.modifiers cfg = false) :
    resource_delta_apply cfg st
      = st.setInv cfg.entity ((st.getInv cfg.entity).update cfg.resource_id cfg.delta) := by
  have hcond : ¬(cfg.entity = EntityRef.target ∧
      st.targetInv.is_modifier cfg.resource_id = false) := by
    intro ⟨h1, h2⟩
    have h3 : deferred_eligible st.targetInv.modifiers cfg = true :=
      (deferred_eligible_iff _ _).mpr ⟨h1, h2⟩
    rw [he] at h3
    exact Bool.noConfusion h3
  simp only [resource_delta_apply, hd, if_neg hcond]

theorem apply_targetInv_cases (cfg : ResourceDeltaMutationConfig) (st : HandlerCtxState) :
    (resource_delta_apply cfg st).targetInv = st.targetInv ∨
    (resource_delta_apply cfg st).targetInv
      = st.targetInv.update cfg.resource_id cfg.delta := by
  cases hd : st.deferred with
  | none =>
    simp only [resource_delta_apply, hd]
    rcases cfg with ⟨e, rid, dl⟩
    cases e with
    | actor => exact Or.inl rfl
    | target => exact Or.inr rfl
    | actor_collective => exact Or.inl rfl
    | target_collective => exact Or.inl rfl
  | some acc =>
    simp only [resource_delta_apply, hd]
    by_cases hcond : cfg.entity = EntityRef.target ∧
        st.targetInv.is_modifier cfg.resource_id = false
    · rw [if_pos hcond]
      exact Or.inl rfl
    · rw [if_neg hcond]
      rcases cfg with ⟨e, rid, dl⟩
      cases e with
      | actor => exact Or.inl rfl
      | target => exact Or.inr rfl
      | actor_collective => exact Or.inl rfl
      | target_collective => exact Or.inl rfl

theorem apply_targetInv_modifiers (cfg : ResourceDeltaMutationConfig) (st : HandlerCtxState) :
    (resource_delta_apply cfg st).targetInv.modifiers = st.targetInv.modifiers := by
  rcases apply_targetInv_cases cfg st with h | h
  · rw [h]
  · rw [h, update_modifiers]

theorem apply_deferred_isSome (cfg : ResourceDeltaMutationConfig) (st : HandlerCtxState) :
    (resource_delta_apply cfg st).deferred.isSome = st.deferred.isSome := by
  cases hd : st.deferred with
  | none =>
    simp only [resource_delta_apply, hd]
    rw [setInv_deferred, hd]
  | some acc =>
    simp only [resource_delta_apply, hd]
    by_cases hcond : cfg.entity = EntityRef.target ∧
        st.targetInv.is_modifier cfg.resource_id = false
    · rw [if_pos hcond]
      rfl
    · rw [if_neg hcond, setInv_deferred, hd]

theorem invs_components (st₁ st₂ : HandlerCtxState) (h : st₁.invs = st₂.invs) :
    st₁.actorInv = st₂.actorInv ∧ st₁.targetInv = st₂.targetInv ∧
    st₁.actorCollInv = st₂.actorCollInv ∧ st₁.targetCollInv = st₂.targetCollInv := by
  rw [HandlerCtxState.invs, HandlerCtxState.invs] at h
  simp only [Prod.mk.injEq] at h
  exact ⟨h.1, h.2.1, h.2.2.1, h.2.2.2⟩

theorem getInv_congr (st₁ st₂ : HandlerCtxState) (h : st₁.invs = st₂.invs) (e : EntityRef) :
    st₁.getInv e = st₂.getInv e := by
  rcases invs_components st₁ st₂ h with ⟨h1, h2, h3, h4⟩
  cases e
  · exact h1
  · exact h2
  · exact h3
  · exact h4

theorem setInv_invs_congr (st₁ st₂ : HandlerCtxState) (h : st₁.invs = st₂.invs)
    (e : EntityRef) (inv : Inventory) :
    (st₁.setInv e inv).invs = (st₂.setInv e inv).invs := by
  rcases invs_components st₁ st₂ h with ⟨h1, h2, h3, h4⟩
  cases e <;> simp [HandlerCtxState.setInv, HandlerCtxState.invs, h1, h2, h3, h4]

theorem apply_invs_congr :
    ∀ (cfgs : List ResourceDeltaMutationConfig) (st₁ st₂ : HandlerCtxState),
      st₁.invs = st₂.invs → st₁.deferred.isSome = st₂.deferred.isSome →
      (apply_resource_deltas cfgs st₁).invs = (apply_resource_deltas cfgs st₂).invs := by
  intro cfgs
  induction cfgs with
  | nil => intro st₁ st₂ h _; exact h
  | cons c rest ih =>
    intro st₁ st₂ h hs
    have htgt : st₁.targetInv = st₂.targetInv := (invs_components st₁ st₂ h).2.1
    have hstep : (resource_delta_apply c st₁).invs = (resource_delta_apply c st₂).invs := by
      cases hd1 : st₁.deferred with
      | none =>
        cases hd2 : st₂.deferred with
        | none =>
          simp only [resource_delta_apply, hd1, hd2]
          rw [getInv_congr st₁ st₂ h]
          exact setInv_invs_congr st₁ st₂ h _ _
        | some acc₂ =>
          rw [hd1, hd2] at hs
          simp at hs
      | some acc₁ =>
        cases hd2 : st₂.deferred with
        | none =>
          rw [hd1, hd2] at hs
          simp at hs
        | some acc₂ =>
          simp only [resource_delta_apply, hd1, hd2]
          by_cases hcond : c.entity = EntityRef.target ∧
              st₁.targetInv.is_modifier c.resource_id = false
          · rw [if_pos hcond, if_pos (htgt ▸ hcond)]
            exact h
          · rw [if_neg hcond, if_neg (htgt ▸ hcond)]
            rw [getInv_congr st₁ st₂ h]
            exact setInv_invs_congr st₁ st₂ h _ _
    have hstepS : (resource_delta_apply c st₁).deferred.isSome
        = (resource_delta_apply c st₂).deferred.isSome := by
      rw [apply_deferred_isSome, apply_deferred_isSome, hs]
    exact ih _ _ hstep hstepS

theorem apply_deferred_content :
    ∀ (cfgs : List ResourceDeltaMutationConfig) (st : HandlerCtxState) (acc : DeferredAcc),
      st.deferred = Option.some acc →
      (apply_resource_deltas cfgs st).deferred
        = Option.some (accFold acc
            (cfgs.filter (fun c => deferred_eligible st.targetInv.modifiers c))) := by
  intro cfgs
  induction cfgs with
  | nil => intro st acc hd; simpa [apply_resource_deltas, accFold] using hd
  | cons c rest ih =>
    intro st acc hd
    have hfold : apply_resource_deltas (c :: rest) st
        = apply_resource_deltas rest (resource_delta_apply c st) := rfl
    rw [hfold, List.filter_cons]
    by_cases he : deferred_eligible st.targetInv.modifiers c = true
    · rw [resource_delta_apply_deferred_branch c st acc hd he]
      have hd' : ({ st with deferred := Option.some (acc.add c.resource_id c.delta) }
          : HandlerCtxState).deferred = Option.some (acc.add c.resource_id c.delta) := rfl
      rw [ih _ _ hd']
      rw [he]
      simp only [if_true]
      rfl
    · have he' : deferred_eligible st.targetInv.modifiers c = false :=
        Bool.not_eq_true _ ▸ (Bool.eq_false_iff.mpr he)
      rw [resource_delta_apply_immediate c st acc hd he']
      have hd' : (st.setInv c.entity
          ((st.getInv c.entity).update c.resource_id c.delta)).deferred
          = Option.some acc := by
        rw [setInv_deferred, hd]
      have hmods : (st.setInv c.entity
          ((st.getInv c.entity).update c.resource_id c.delta)).targetInv.modifiers
          = st.targetInv.modifiers := by
        rw [← resource_delta_apply_immediate c st acc hd he']
        exact apply_targetInv_modifiers c st
      rw [ih _ _ hd', hmods, he']
      simp

theorem apply_invs_decomp :
    ∀ (cfgs : List ResourceDeltaMutationConfig) (st : HandlerCtxState) (acc : DeferredAcc),
      st.deferred = Option.some acc →
      (apply_resource_deltas cfgs st).invs
        = (apply_resource_deltas
            (cfgs.filter (fun c => !(deferred_eligible st.targetInv.modifiers c))) st).invs := by
  intro cfgs
  induction cfgs with
  | nil => intro st acc hd; rfl
  | cons c rest ih =>
    intro st acc hd
    have hfold : apply_resource_deltas (c :: rest) st
        = apply_resource_deltas rest (resource_delta_apply c st) := rfl
    rw [hfold]
    by_cases he : deferred_eligible st.targetInv.modifiers c = true
    · have hfc : List.filter (fun x => !deferred_eligible st.targetInv.modifiers x) (c :: rest)
          = List.filter (fun x => !deferred_eligible st.targetInv.modifiers x) rest := by
        simp [List.filter_cons, he]
      rw [hfc, resource_delta_apply_deferred_branch c st acc hd he]
      have hcongr : (apply_resource_deltas rest
            ({ st with deferred := Option.some (acc.add c.resource_id c.delta) }
              : HandlerCtxState)).invs
          = (apply_resource_deltas rest st).invs := by
        refine apply_invs_congr rest _ st rfl ?_
        rw [hd]
        rfl
      rw [hcongr]
      exact ih st acc hd
    · have he' : deferred_eligible st.targetInv.modifiers c = false :=
        Bool.eq_false_iff.mpr he
      have hfc : List.filter (fun x => !deferred_eligible st.targetInv.modifiers x) (c :: rest)
          = c :: List.filter (fun x => !deferred_eligible st.targetInv.modifiers x) rest := by
        simp [List.filter_cons, he']
      rw [hfc]
      have hfold2 : apply_resource_deltas
          (c :: List.filter (fun x => !deferred_eligible st.targetInv.modifiers x) rest) st
          = apply_resource_deltas
              (List.filter (fun x => !deferred_eligible st.targetInv.modifiers x) rest)
              (resource_delta_apply c st) := rfl
      rw [hfold2, resource_delta_apply_immediate c st acc hd he']
      have hd' : (st.setInv c.entity
          ((st.getInv c.entity).update c.resource_id c.delta)).deferred
          = Option.some acc := by
        rw [setInv_deferred, hd]
      have hmods : (st.setInv c.entity
          ((st.getInv c.entity).update c.resource_id c.delta)).targetInv.modifiers
          = st.targetInv.modifiers := by
        rw [← resource_delta_apply_immediate c st acc hd he']
        exact apply_targetInv_modifiers c st
      have hres := ih (st.setInv c.entity
          ((st.getInv c.entity).update c.resource_id c.delta)) acc hd'
      rw [hmods] at hres
      exact hres

theorem apply_targetInv_WF :
    ∀ (cfgs : List ResourceDeltaMutationConfig) (st : HandlerCtxState),
      st.targetInv.WF → (apply_resource_deltas cfgs st).targetInv.WF := by
  intro cfgs
  induction cfgs with
  | nil => intro st h; exact h
  | cons c rest ih =>
    intro st h
    have hfold : apply_resource_deltas (c :: rest) st
        = apply_resource_deltas rest (resource_delta_apply c st) := rfl
    rw [hfold]
    refine ih _ ?_
    rcases apply_targetInv_cases c st with hc | hc
    · rw [hc]; exact h
    · rw [hc]; exact update_WF _ _ _ h

/-- One step of the flush loop, on the target inventory alone. -/
def flush_inv_step (deltas : List (ℕ × ℤ)) (inv : Inventory) (r : ℕ) : Inventory :=
  match assocLookup deltas r with
  | Option.none => inv
  | Option.some d => if d ≠ 0 then inv.update r d else inv

theorem flush_state_fold (acc : DeferredAcc) :
    ∀ (ord : List ℕ) (st : HandlerCtxState),
      ord.foldl (fun s r =>
        match assocLookup acc.deltas r with
        | Option.none => s
        | Option.some d =>
          if d ≠ 0 then { s with targetInv := s.targetInv.update r d } else s) st
      = { st with targetInv := ord.foldl (flush_inv_step acc.deltas) st.targetInv } := by
  intro ord
  induction ord with
  | nil => intro st; cases st; rfl
  | cons r rest ih =>
    intro st
    rw [List.foldl_cons, List.foldl_cons, ih]
    cases hl : assocLookup acc.deltas r with
    | none => simp [flush_inv_step, hl]
    | some d =>
      by_cases hd : d ≠ 0
      · simp [flush_inv_step, hl, hd]
      · simp [flush_inv_step, hl, hd]

theorem flush_inv_fold_spec (deltas : List (ℕ × ℤ)) (net : ℕ → ℤ) :
    ∀ (ord : List ℕ) (inv : Inventory),
      (∀ r ∈ ord, assocLookup deltas r = Option.some (net r)) → inv.WF →
      ord.foldl (flush_inv_step deltas) inv
        = ord.foldl (fun inv r => inv.update r (net r)) inv := by
  intro ord
  induction ord with
  | nil => intro inv _ _; rfl
  | cons r rest ih =>
    intro inv hlook hWF
    rw [List.foldl_cons, List.foldl_cons]
    have hr := hlook r (List.mem_cons_self _ _)
    by_cases hz : net r = 0
    · have hstep : flush_inv_step deltas inv r = inv := by
        rw [flush_inv_step, hr, hz]
        simp
      rw [hstep, hz, update_zero inv r hWF]
      exact ih inv (fun x hx => hlook x (List.mem_cons_of_mem _ hx)) hWF
    · have hstep : flush_inv_step deltas inv r = inv.update r (net r) := by
        rw [flush_inv_step, hr]
        simp [hz]
      rw [hstep]
      exact ih _ (fun x hx => hlook x (List.mem_cons_of_mem _ hx)) (update_WF _ _ _ hWF)

theorem flush_deferred_spec (st : HandlerCtxState) (acc : DeferredAcc) (net : ℕ → ℤ)
    (hd : st.deferred = Option.some acc)
    (hlook : ∀ r ∈ acc.order, assocLookup acc.deltas r = Option.some (net r))
    (hWF : st.targetInv.WF) :
    flush_deferred st
      = { st with targetInv :=
            acc.order.foldl (fun inv r => inv.update r (net r)) st.targetInv } := by
  simp only [flush_deferred, hd]
  by_cases hord : acc.order.isEmpty = true
  · rw [if_pos hord]
    have hnil : acc.order = [] := List.isEmpty_iff.mp hord
    rw [hnil]
    cases st
    rw [← hd]
    rfl
  · rw [if_neg hord]
    rw [flush_state_fold acc acc.order st]
    rw [flush_inv_fold_spec acc.deltas net acc.order st.targetInv hlook hWF]
    rw [hd]

/-! ## GridObject tag operations (grid_object.cpp lines 71–165)

`tag_bits` is the set of set bit positions.  Index notifications and
lifecycle-handler dispatches are recorded as a side-effect trace.
`kMaxTags` is declared in grid_object.hpp, which is absent from the
source tree; modelled from the spec (§3 Tags: a fixed-width bitset of at
least 256 bits).  Every theorem below holds for any positive capacity. -/

def kMaxTags : ℕ := 256

inductive TagSideEffect
  | indexAdded (t : ℕ)
  | indexRemoved (t : ℕ)
  | addHandlersFired (t : ℕ)
  | removeHandlersFired (t : ℕ)
deriving DecidableEq

/-- `GridObject::has_tag` (lines 71–74). -/
def has_tag (bits : Finset ℕ) (t : ℤ) : Bool :=
  if t < 0 ∨ (kMaxTags : ℤ) ≤ t then false
  else decide (t.toNat ∈ bits)

/-- `GridObject::add_tag(int)` (lines 76–84): range guard, set bit if
clear, notify the tag index when attached. -/
def add_tag_plain (bits : Finset ℕ) (hasIndex : Bool) (t : ℤ) :
    Finset ℕ × List TagSideEffect :=
  if t < 0 ∨ (kMaxTags : ℤ) ≤ t then (bits, [])
  else if t.toNat ∈ bits then (bits, [])
  else (insert t.toNat bits,
    if hasIndex then [TagSideEffect.indexAdded t.toNat] else [])

/-- `GridObject::remove_tag(int)` (lines 86–94). -/
def remove_tag_plain (bits : Finset ℕ) (hasIndex : Bool) (t : ℤ) :
    Finset ℕ × List TagSideEffect :=
  if t < 0 ∨ (kMaxTags : ℤ) ≤ t then (bits, [])
  else if t.toNat ∈ bits then
    (bits.erase t.toNat,
      if hasIndex then [TagSideEffect.indexRemoved t.toNat] else [])
  else (bits, [])

/-- The `_on_tag_add` / `_on_tag_remove` handler maps: whether an entry
exists for a tag id. -/
structure TagHandlerTables where
  onAdd : ℕ → Bool
  onRemove : ℕ → Bool

/-- `GridObject::add_tag(int, ctx)` (lines 110–126): range guard,
no-op when present, set bit, then — only when the context carries a tag
index — notify it and, unless `skip_on_update_trigger`, run the
object's `on_tag_add` handlers for that tag. -/
def add_tag_ctx (bits : Finset ℕ) (tables : TagHandlerTables)
    (ctxHasIndex skip : Bool) (t : ℤ) : Finset ℕ × List TagSideEffect :=
  if t < 0 ∨ (kMaxTags : ℤ) ≤ t then (bits, [])
  else if t.toNat ∈ bits then (bits, [])
  else (insert t.toNat bits,
    if ctxHasIndex then
      TagSideEffect.indexAdded t.toNat ::
        (if !skip && tables.onAdd t.toNat then [TagSideEffect.addHandlersFired t.toNat]
         else [])
    else [])

/-- `GridObject::remove_tag(int, ctx)` (lines 128–144). -/
def remove_tag_ctx (bits : Finset ℕ) (tables : TagHandlerTables)
    (ctxHasIndex skip : Bool) (t : ℤ) : Finset ℕ × List TagSideEffect :=
  if t < 0 ∨ (kMaxTags : ℤ) ≤ t then (bits, [])
  else if t.toNat ∈ bits then
    (bits.erase t.toNat,
      if ctxHasIndex then
        TagSideEffect.indexRemoved t.toNat ::
          (if !skip && tables.onRemove t.toNat then
            [TagSideEffect.removeHandlersFired t.toNat]
           else [])
      else [])
  else (bits, [])

/-! ## Materialized query-tag recomputation (query_system.cpp lines
117–170)

The state kept here is the tag-index membership list for the one tag
being recomputed, plus a trace of lifecycle-handler dispatches.  An
object has the tag iff it is in `tagged` (tag-index invariant).
`hasAdd` / `hasRemove` tell whether the object's handler map has an
entry for the tag (`_on_tag_add.find(tag_id)` in grid_object.cpp):
`apply_on_tag_add_handlers` / `..._remove_handlers` run the handler list
only in that case. -/

inductive LifecycleEvent (α : Type)
  | removeFired (o : α)
  | addFired (o : α)
deriving DecidableEq

structure TagWorld (α : Type) where
  tagged : List α
  events : List (LifecycleEvent α)

/-- `obj->remove_tag(tag, ctx)` restricted to the recomputed tag:
membership update, handlers fired only when the tag was present and
`skip` is off (grid_object.cpp lines 128–144). -/
def remove_tag_on {α : Type} [DecidableEq α] (skip : Bool) (hasRemove : α → Bool)
    (w : TagWorld α) (o : α) : TagWorld α :=
  if o ∈ w.tagged then
    { tagged := w.tagged.erase o,
      events := w.events ++
        (if !skip && hasRemove o then [LifecycleEvent.removeFired o] else []) }
  else w

/-- `obj->add_tag(tag, ctx)` restricted to the recomputed tag. -/
def add_tag_on {α : Type} [DecidableEq α] (skip : Bool) (hasAdd : α → Bool)
    (w : TagWorld α) (o : α) : TagWorld α :=
  if o ∈ w.tagged then w
  else
    { tagged := w.tagged ++ [o],
      events := w.events ++
        (if !skip && hasAdd o then [LifecycleEvent.addFired o] else []) }

/-- `obj->apply_on_tag_remove_handlers(tag, ctx)` (grid_object.cpp lines
157–165): runs the handler list iff the map has an entry. -/
def apply_remove_handlers {α : Type} (hasRemove : α → Bool) (w : TagWorld α) (o : α) :
    TagWorld α :=
  if hasRemove o then { w with events := w.events ++ [LifecycleEvent.removeFired o] } else w

/-- `obj->apply_on_tag_add_handlers(tag, ctx)` (lines 148–155). -/
def apply_add_handlers {α : Type} (hasAdd : α → Bool) (w : TagWorld α) (o : α) :
    TagWorld α :=
  if hasAdd o then { w with events := w.events ++ [LifecycleEvent.addFired o] } else w

/-- `QuerySystem::recompute` (lines 117–170) for the matching tag def:
`before` is the tag index's list for the tag
(`objects_that_lost_tag`), `result` the query evaluation, and
`keepEnum` an enumeration of the `objects_that_keep_tag` unordered set
(any duplicate-free list with the same members as `result`; the C++
iteration order is unspecified).  Phase 1 rewrites membership with
`skip_on_update_trigger = true`; phase 2 fires `on_tag_remove` for each
`before` object not in the keep set and `on_tag_add` for each keep-set
object not in `original_set`. -/
def recompute {α : Type} [DecidableEq α] (hasAdd hasRemove : α → Bool)
    (before result keepEnum : List α) (w : TagWorld α) : TagWorld α :=
  let w1 := before.foldl (remove_tag_on true hasRemove) w
  let w2 := result.foldl (add_tag_on true hasAdd) w1
  let w3 := before.foldl
    (fun s o => if o ∈ result then s else apply_remove_handlers hasRemove s o) w2
  keepEnum.foldl
    (fun s o => if o ∈ before then s else apply_add_handlers hasAdd s o) w3

/-- The rewrite phase of `recompute` alone (`skip_on_update_trigger`
still set): everything before the lifecycle dispatch loops. -/
def recompute_rewrite_phase {α : Type} [DecidableEq α] (hasAdd hasRemove : α → Bool)
    (before result : List α) (w : TagWorld α) : TagWorld α :=
  (result.foldl (add_tag_on true hasAdd) (before.foldl (remove_tag_on true hasRemove) w))

theorem remove_skip_events {α : Type} [DecidableEq α] (hasRemove : α → Bool) :
    ∀ (l : List α) (w : TagWorld α),
      (l.foldl (remove_tag_on true hasRemove) w).events = w.events := by
  intro l
  induction l with
  | nil => intro w; rfl
  | cons o rest ih =>
    intro w
    rw [List.foldl_cons, ih]
    rw [remove_tag_on]
    by_cases ho : o ∈ w.tagged
    · rw [if_pos ho]
      simp
    · rw [if_neg ho]

theorem add_skip_events {α : Type} [DecidableEq α] (hasAdd : α → Bool) :
    ∀ (l : List α) (w : TagWorld α),
      (l.foldl (add_tag_on true hasAdd) w).events = w.events := by
  intro l
  induction l with
  | nil => intro w; rfl
  | cons o rest ih =>
    intro w
    rw [List.foldl_cons, ih]
    rw [add_tag_on]
    by_cases ho : o ∈ w.tagged
    · rw [if_pos ho]
    · rw [if_neg ho]
      simp

theorem remove_dispatch_fold {α : Type} [DecidableEq α] (hasRemove : α → Bool)
    (result : List α) :
    ∀ (l : List α) (w : TagWorld α),
      (l.foldl (fun s o => if o ∈ result then s else apply_remove_handlers hasRemove s o)
          w).events
        = w.events ++ (l.filter
            (fun o => !decide (o ∈ result) && hasRemove o)).map LifecycleEvent.removeFired ∧
      (l.foldl (fun s o => if o ∈ result then s else apply_remove_handlers hasRemove s o)
          w).tagged = w.tagged := by
  intro l
  induction l with
  | nil => intro w; simp
  | cons o rest ih =>
    intro w
    rw [List.foldl_cons, List.filter_cons]
    by_cases ho : o ∈ result
    · rw [if_pos ho]
      rcases ih w with ⟨h1, h2⟩
      have hb : (!decide (o ∈ result) && hasRemove o) = false := by
        simp [ho]
      rw [hb]
      exact ⟨h1, h2⟩
    · rw [if_neg ho]
      by_cases hh : hasRemove o = true
      · have hb : (!decide (o ∈ result) && hasRemove o) = true := by
          simp [ho, hh]
        rw [hb]
        have hw : apply_remove_handlers hasRemove w o
            = { w with events := w.events ++ [LifecycleEvent.removeFired o] } := by
          rw [apply_remove_handlers, if_pos hh]
        rw [hw]
        rcases ih { w with events := w.events ++ [LifecycleEvent.removeFired o] }
          with ⟨h1, h2⟩
        rw [h1, h2]
        constructor
        · simp
        · rfl
      · have hh' : hasRemove o = false := Bool.eq_false_iff.mpr hh
        have hb : (!decide (o ∈ result) && hasRemove o) = false := by
          simp [hh']
        rw [hb]
        have hw : apply_remove_handlers hasRemove w o = w := by
          rw [apply_remove_handlers, hh']
          simp
        rw [hw]
        exact ih w

theorem add_dispatch_fold {α : Type} [DecidableEq α] (hasAdd : α → Bool)
    (before : List α) :
    ∀ (l : List α) (w : TagWorld α),
      (l.foldl (fun s o => if o ∈ before then s else apply_add_handlers hasAdd s o)
          w).events
        = w.events ++ (l.filter
            (fun o => !decide (o ∈ before) && hasAdd o)).map LifecycleEvent.addFired := by
  intro l
  induction l with
  | nil => intro w; simp
  | cons o rest ih =>
    intro w
    rw [List.foldl_cons, List.filter_cons]
    by_cases ho : o ∈ before
    · rw [if_pos ho]
      have hb : (!decide (o ∈ before) && hasAdd o) = false := by
        simp [ho]
      rw [hb]
      exact ih w
    · rw [if_neg ho]
      by_cases hh : hasAdd o = true
      · have hb : (!decide (o ∈ before) && hasAdd o) = true := by
          simp [ho, hh]
        rw [hb]
        have hw : apply_add_handlers hasAdd w o
            = { w with events := w.events ++ [LifecycleEvent.addFired o] } := by
          rw [apply_add_handlers, if_pos hh]
        rw [hw, ih]
        simp
      · have hh' : hasAdd o = false := Bool.eq_false_iff.mpr hh
        have hb : (!decide (o ∈ before) && hasAdd o) = false := by
          simp [hh']
        rw [hb]
        have hw : apply_add_handlers hasAdd w o = w := by
          rw [apply_add_handlers, hh']
          simp
        rw [hw]
        exact ih w

/-! ## Reward helper (reward.hpp lines 73–105)

`float` arithmetic is modelled over `ℚ`; each `ResolvedGameValue.read()`
during one `compute_entries` call is a fixed value of the tick, recorded
in the entry. -/

/-- `RewardHelper::ResolvedEntry`, with the tick's reads inlined. -/
structure ResolvedEntry where
  numeratorRead : ℚ
  denomReads : List ℚ
  weight : ℚ
  max_value : ℚ
  has_max : Bool
  accumulate : Bool
  prev_value : ℚ
deriving DecidableEq

/-- `RewardHelper::compute_entries` (lines 73–105): empty entry list
returns 0 without touching the reward; otherwise the loop folds
`total_delta` and rewrites each entry's `prev_value`; at the end the
agent's reward slot gains `total_delta` when non-zero.  Returns
`(total_delta, updated entries, updated reward slot)`. -/
def compute_entries (entries : List ResolvedEntry) (reward : ℚ) :
    ℚ × List ResolvedEntry × ℚ :=
  if entries.isEmpty then (0, entries, reward)
  else
    let res := entries.foldl (fun (p : ℚ × List ResolvedEntry) e =>
      let v0 := e.denomReads.foldl (fun v d => if 0 < d then v / d else v)
        (e.numeratorRead * e.weight)
      let val := if e.has_max then min v0 e.max_value else v0
      let contrib := if e.accumulate then val else val - e.prev_value
      (p.1 + contrib, p.2 ++ [{ e with prev_value := val }])) ((0 : ℚ), ([] : List ResolvedEntry))
    (res.1, res.2, if res.1 ≠ 0 then reward + res.1 else reward)

/-- Specification-side per-tick value of an entry: weighted numerator
divided by the product of the strictly positive denominator reads
(non-positive reads leave the value unchanged), clamped from above by
`max_value` when configured. -/
def entry_value (e : ResolvedEntry) : ℚ :=
  let base := (e.numeratorRead * e.weight) / ((e.denomReads.filter (fun d => 0 < d)).prod)
  if e.has_max then min base e.max_value else base

/-- Specification-side contribution of an entry to the reward slot. -/
def entry_contribution (e : ResolvedEntry) : ℚ :=
  if e.accumulate then entry_value e else entry_value e - e.prev_value

theorem foldl_div_filter (ds : List ℚ) :
    ∀ v : ℚ, ds.foldl (fun v d => if 0 < d then v / d else v) v
      = v / ((ds.filter (fun d => 0 < d)).prod) := by
  induction ds with
  | nil => intro v; simp
  | cons d rest ih =>
    intro v
    rw [List.foldl_cons, List.filter_cons]
    by_cases hd : (0 : ℚ) < d
    · rw [if_pos hd]
      have hb : decide ((0 : ℚ) < d) = true := by simp [hd]
      rw [hb]
      simp only [if_true, List.prod_cons]
      rw [ih (v / d), div_div]
    · rw [if_neg hd]
      have hb : decide ((0 : ℚ) < d) = false := by simp [hd]
      rw [hb]
      simp only [Bool.false_eq_true, if_false]
      exact ih v

/-! ## Per-tick reward buffers (mettagrid_c.cpp `_step`)

`_step` zeroes `rewards[]` before anything else runs (lines 856–861),
the reward helpers are the only writers of `rewards[]` afterwards
(`*reward_ptr += total_delta`), and after the helpers run the loop at
lines 986–990 adds `rewards[i]` into `episode_rewards[i]`.  The net
amount agent `i`'s helper adds during one tick is abstracted as
`contrib i`. -/

structure RewardBuffers (n : ℕ) where
  rewards : Fin n → ℚ
  episode_rewards : Fin n → ℚ

/-- One tick's effect on the two buffers: reset, accumulate, add into
the episode returns. -/
def step_rewards {n : ℕ} (contrib : Fin n → ℚ) (st : RewardBuffers n) : RewardBuffers n :=
  let zeroed : Fin n → ℚ := fun _ => 0
  let final : Fin n → ℚ := fun i => zeroed i + contrib i
  { rewards := final, episode_rewards := fun i => st.episode_rewards i + final i }

/-- A run of consecutive ticks. -/
def run_steps {n : ℕ} (st : RewardBuffers n) (cs : List (Fin n → ℚ)) : RewardBuffers n :=
  cs.foldl (fun s c => step_rewards c s) st

/-- Zero-initialized buffers (environment reset). -/
def initBuffers (n : ℕ) : RewardBuffers n :=
  { rewards := fun _ => 0, episode_rewards := fun _ => 0 }

/-- The value `rewards[i]` holds at the end of each successive tick. -/
def final_rewards_trace {n : ℕ} (st : RewardBuffers n) :
    List (Fin n → ℚ) → Fin n → List ℚ
  | [], _ => []
  | c :: cs, i => (step_rewards c st).rewards i :: final_rewards_trace (step_rewards c st) cs i

theorem run_steps_episode {n : ℕ} :
    ∀ (cs : List (Fin n → ℚ)) (st : RewardBuffers n) (i : Fin n),
      (run_steps st cs).episode_rewards i
        = st.episode_rewards i + (final_rewards_trace st cs i).sum := by
  intro cs
  induction cs with
  | nil => intro st i; simp [run_steps, final_rewards_trace]
  | cons c rest ih =>
    intro st i
    have h1 : run_steps st (c :: rest) = run_steps (step_rewards c st) rest := rfl
    rw [h1, ih]
    rw [final_rewards_trace]
    rw [List.sum_cons]
    rw [step_rewards]
    simp
    ring

theorem evaluate_plain {α : Type} [DecidableEq α] (cfg : ClosureQueryConfig α)
    (shuffle : List α → List α) (hres : cfg.result_filters = [])
    (hmax : cfg.max_items = 0) (hord : cfg.order_by = QueryOrderBy.none) :
    cfg.evaluate shuffle = closure_members cfg := by
  rw [ClosureQueryConfig.evaluate]
  rw [hres, hmax, hord]
  rw [apply_limits]
  simp

theorem reach_source_ne_nil {α : Type} [DecidableEq α] (fs : List (α → α → Bool))
    (pool roots : List α) (a : α) (h : Reach fs pool roots a) : roots ≠ [] := by
  induction h with
  | root hmem =>
    intro hnil
    rw [hnil] at hmem
    exact List.not_mem_nil _ hmem
  | step _ _ _ ih => exact ih

theorem reach_empty_edge_filters {α : Type} [DecidableEq α] (pool roots : List α) (a : α) :
    Reach ([] : List (α → α → Bool)) pool roots a ↔
      a ∈ roots ∨ (roots ≠ [] ∧ a ∈ pool) := by
  constructor
  · intro h
    induction h with
    | root hmem => exact Or.inl hmem
    | step hx hc _ ih =>
      rcases ih with hmem | ⟨hne, _⟩
      · refine Or.inr ⟨?_, hc⟩
        intro hnil
        rw [hnil] at hmem
        exact List.not_mem_nil _ hmem
      · exact Or.inr ⟨hne, hc⟩
  · rintro (h | ⟨hne, hp⟩)
    · exact Reach.root h
    · rcases List.exists_mem_of_ne_nil roots hne with ⟨r, hr⟩
      exact Reach.step (Reach.root hr) hp rfl

theorem count_map_removeFired {α : Type} [DecidableEq α] (l : List α) (o : α) :
    ((l.map LifecycleEvent.removeFired).count (LifecycleEvent.removeFired o)) = l.count o :=
  List.count_map_of_injective l LifecycleEvent.removeFired
    (fun a b h => by injection h) o

theorem count_map_addFired {α : Type} [DecidableEq α] (l : List α) (o : α) :
    ((l.map LifecycleEvent.addFired).count (LifecycleEvent.addFired o)) = l.count o :=
  List.count_map_of_injective l LifecycleEvent.addFired
    (fun a b h => by injection h) o

theorem count_removeFired_in_addFired_map {α : Type} [DecidableEq α] (l : List α) (o : α) :
    ((l.map LifecycleEvent.addFired).count (LifecycleEvent.removeFired o)) = 0 := by
  rw [List.count_eq_zero]
  intro hmem
  rcases List.mem_map.mp hmem with ⟨x, _, hx⟩
  exact LifecycleEvent.noConfusion hx

theorem count_addFired_in_removeFired_map {α : Type} [DecidableEq α] (l : List α) (o : α) :
    ((l.map LifecycleEvent.removeFired).count (LifecycleEvent.addFired o)) = 0 := by
  rw [List.count_eq_zero]
  intro hmem
  rcases List.mem_map.mp hmem with ⟨x, _, hx⟩
  exact LifecycleEvent.noConfusion hx

theorem count_filter_nodup {α : Type} [DecidableEq α] (l : List α) (p : α → Bool) (o : α)
    (h : l.Nodup) :
    (l.filter p).count o = if o ∈ l ∧ p o = true then 1 else 0 := by
  by_cases hc : o ∈ l ∧ p o = true
  · rw [if_pos hc]
    exact List.count_eq_one_of_mem (h.filter p) (List.mem_filter.mpr ⟨hc.1, hc.2⟩)
  · rw [if_neg hc]
    rw [List.count_eq_zero]
    intro hmem
    exact hc ⟨(List.mem_filter.mp hmem).1, (List.mem_filter.mp hmem).2⟩

theorem compute_entries_fold :
    ∀ (entries : List ResolvedEntry) (t0 : ℚ) (acc0 : List ResolvedEntry),
      entries.foldl (fun (p : ℚ × List ResolvedEntry) e =>
        let v0 := e.denomReads.foldl (fun v d => if 0 < d then v / d else v)
          (e.numeratorRead * e.weight)
        let val := if e.has_max then min v0 e.max_value else v0
        let contrib := if e.accumulate then val else val - e.prev_value
        (p.1 + contrib, p.2 ++ [{ e with prev_value := val }])) (t0, acc0)
      = (t0 + (entries.map entry_contribution).sum,
         acc0 ++ entries.map (fun e => { e with prev_value := entry_value e })) := by
  intro entries
  induction entries with
  | nil => intro t0 acc0; simp
  | cons e rest ih =>
    intro t0 acc0
    rw [List.foldl_cons]
    have hval : (if e.has_max then
        min (e.denomReads.foldl (fun v d => if 0 < d then v / d else v)
          (e.numeratorRead * e.weight)) e.max_value
      else e.denomReads.foldl (fun v d => if 0 < d then v / d else v)
        (e.numeratorRead * e.weight)) = entry_value e := by
      rw [foldl_div_filter]
      rfl
    simp only [hval]
    rw [ih]
    have hcon : (if e.accumulate then entry_value e else entry_value e - e.prev_value)
        = entry_contribution e := rfl
    rw [hcon]
    simp only [List.map_cons, List.sum_cons]
    rw [Prod.mk.injEq]
    refine ⟨by ring, ?_⟩
    rw [List.append_assoc, List.singleton_append]

/-! # Claim theorems -/

/-- C4 (counterexample): the claimed invariant
`written + dropped + free = num_observation_tokens` fails as soon as
tokens are dropped.  With `num_observation_tokens = 4` and one emission
attempting 6 tokens, the encoder records `written = 4`, `dropped = 2`,
`free = 0`, and the sum is 6, not 4. -/
theorem c4_token_accounting_counterexample :
    ¬((obs_encode 4 [6]).tokens_written + tokens_dropped (obs_encode 4 [6])
        + tokens_free_space 4 (obs_encode 4 [6]) = 4) := by
  decide

/-- C4 (amended): after every observation encoding,
`written + free = num_observation_tokens` and
`written + dropped + free = num_observation_tokens + dropped`; the
claimed sum equals `num_observation_tokens` exactly when no tokens were
dropped. -/
theorem c4_token_accounting_amended (capacity : ℕ) (ks : List ℕ) :
    (obs_encode capacity ks).tokens_written
        + tokens_free_space capacity (obs_encode capacity ks) = capacity
    ∧ (obs_encode capacity ks).tokens_written + tokens_dropped (obs_encode capacity ks)
        + tokens_free_space capacity (obs_encode capacity ks)
      = capacity + tokens_dropped (obs_encode capacity ks)
    ∧ ((obs_encode capacity ks).tokens_written + tokens_dropped (obs_encode capacity ks)
        + tokens_free_space capacity (obs_encode capacity ks) = capacity
      ↔ tokens_dropped (obs_encode capacity ks) = 0) := by
  have h := obs_encode_written capacity ks
  simp only [tokens_dropped, tokens_free_space]
  omega

/-- C9: for every tag id outside `[0, kMaxTags)`, `has_tag` returns
`false` and all four `add_tag` / `remove_tag` overloads leave the
bitset untouched, never notify the tag index, and never fire lifecycle
handlers (the empty side-effect trace); the out-of-range id is never
used to index the bitset, since every operation returns before the
guard. -/
theorem c9_out_of_range_tag_ops (bits : Finset ℕ) (tables : TagHandlerTables)
    (hasIndex ctxHasIndex skip : Bool) (t : ℤ)
    (ht : t < 0 ∨ (kMaxTags : ℤ) ≤ t) :
    has_tag bits t = false
    ∧ add_tag_plain bits hasIndex t = (bits, [])
    ∧ remove_tag_plain bits hasIndex t = (bits, [])
    ∧ add_tag_ctx bits tables ctxHasIndex skip t = (bits, [])
    ∧ remove_tag_ctx bits tables ctxHasIndex skip t = (bits, []) := by
  refine ⟨?_, ?_, ?_, ?_, ?_⟩
  · rw [has_tag, if_pos ht]
  · rw [add_tag_plain, if_pos ht]
  · rw [remove_tag_plain, if_pos ht]
  · rw [add_tag_ctx, if_pos ht]
  · rw [remove_tag_ctx, if_pos ht]

/-- C9 witness at the first out-of-range id `t = kMaxTags = 256`. -/
theorem c9_out_of_range_tag_ops_witness :
    ((256 : ℤ) < 0 ∨ (kMaxTags : ℤ) ≤ 256)
    ∧ (has_tag {3} 256 = false
      ∧ add_tag_plain {3} true 256 = ({3}, [])
      ∧ remove_tag_plain {3} true 256 = ({3}, [])
      ∧ add_tag_ctx {3} { onAdd := fun _ => true, onRemove := fun _ => true } true false 256
          = ({3}, [])
      ∧ remove_tag_ctx {3} { onAdd := fun _ => true, onRemove := fun _ => true } true false 256
          = ({3}, [])) :=
  ⟨by decide,
   c9_out_of_range_tag_ops {3} { onAdd := fun _ => true, onRemove := fun _ => true }
     true true false 256 (by decide)⟩

/-- C8: `rewards[i]` is reset to zero at the start of every tick before
the reward helper accumulates into it, and after `k` ticks
`episode_rewards[i]` equals the sum of the final `rewards[i]` values of
ticks `1..k`. -/
theorem c8_reward_buffers (n : ℕ) (cs : List (Fin n → ℚ)) (i : Fin n)
    (c : Fin n → ℚ) (st : RewardBuffers n) :
    (run_steps (initBuffers n) cs).episode_rewards i
      = (final_rewards_trace (initBuffers n) cs i).sum
    ∧ (step_rewards c st).rewards i = 0 + c i := by
  refine ⟨?_, rfl⟩
  rw [run_steps_episode]
  simp [initBuffers]

/-- C7: `compute_entries` evaluates each entry to
`numerator·weight` divided by the product of the strictly positive
denominator reads (non-positive reads leave the value unchanged, so no
division by zero occurs), clamped by `max_value` when configured;
contributes `value - prev_value` (or `value` when `accumulate`) to the
reward slot; and stores the new `prev_value`. -/
theorem c7_reward_entry_semantics (entries : List ResolvedEntry) (reward : ℚ) :
    compute_entries entries reward
      = ((entries.map entry_contribution).sum,
         entries.map (fun e => { e with prev_value := entry_value e }),
         reward + (entries.map entry_contribution).sum) := by
  rw [compute_entries]
  by_cases h : entries.isEmpty
  · rw [if_pos h]
    have hnil : entries = [] := List.isEmpty_iff.mp h
    subst hnil
    simp
  · rw [if_neg h]
    rw [compute_entries_fold entries 0 []]
    simp only [zero_add, List.nil_append]
    by_cases hz : (entries.map entry_contribution).sum ≠ 0
    · rw [if_pos hz]
    · rw [if_neg hz]
      push_neg at hz
      rw [hz]
      simp

/-- A territory-style static AOE config in the claim's sense: zero
mutations, zero presence deltas, positive radius. -/
def territoryDiscConfig : AOEConfig Unit Unit Unit :=
  { radius := 2, is_static := true, effect_self := false, controls_territory := true,
    filters := [], mutations := [], presence_deltas := [] }

/-- C3 (counterexample): a territory-style static AOE (no mutations, no
presence deltas, positive radius 2) at (2,2) on a 5×5 grid still covers
the cardinal boundary cell (0,2) at L2 distance exactly `radius`: the
registration loop has no boundary trimming, contradicting the claimed
exclusion of the four cardinal boundary cells. -/
theorem c3_territory_trim_counterexample :
    territoryDiscConfig.mutations = []
    ∧ territoryDiscConfig.presence_deltas = []
    ∧ (0 : ℤ) < territoryDiscConfig.radius
    ∧ ((0, 2) : ℤ × ℤ) ∈ register_fixed_cells 5 5 (2, 2) territoryDiscConfig
    ∧ ((0 : ℤ) - 2) * (0 - 2) + ((2 : ℤ) - 2) * (2 - 2)
        = territoryDiscConfig.radius * territoryDiscConfig.radius := by
  refine ⟨rfl, rfl, by decide, ?_, by decide⟩
  decide

/-- C3 (amended): `register_fixed` appends the source to exactly the
in-bounds cells within L2 distance `radius` of the source, for every
static AOE config alike — the mutation list, presence deltas and
territory flag play no part, and no cardinal-boundary exclusion
exists (so radii 0 and 1 keep full coverage as special cases). -/
theorem c3_register_fixed_coverage {F M P : Type} (height width : ℕ) (src : ℤ × ℤ)
    (config : AOEConfig F M P) (hr : 0 ≤ config.radius) (r c : ℤ) :
    (r, c) ∈ register_fixed_cells height width src config ↔
      0 ≤ r ∧ r < (height : ℤ) ∧ 0 ≤ c ∧ c < (width : ℤ) ∧
      (r - src.1) * (r - src.1) + (c - src.2) * (c - src.2)
        ≤ config.radius * config.radius :=
  mem_cells_in_radius height width src config.radius hr r c

/-- C3 witness: the coverage characterization applied to the territory
config of the counterexample at the boundary cell (0,2). -/
theorem c3_register_fixed_coverage_witness :
    (0 : ℤ) ≤ territoryDiscConfig.radius
    ∧ (((0 : ℤ), (2 : ℤ)) ∈ register_fixed_cells 5 5 (2, 2) territoryDiscConfig ↔
        (0 : ℤ) ≤ 0 ∧ (0 : ℤ) < ((5 : ℕ) : ℤ) ∧ (0 : ℤ) ≤ 2 ∧ (2 : ℤ) < ((5 : ℕ) : ℤ) ∧
        ((0 : ℤ) - ((2 : ℤ), (2 : ℤ)).1) * (0 - ((2 : ℤ), (2 : ℤ)).1)
            + ((2 : ℤ) - ((2 : ℤ), (2 : ℤ)).2) * (2 - ((2 : ℤ), (2 : ℤ)).2)
          ≤ territoryDiscConfig.radius * territoryDiscConfig.radius) :=
  ⟨by decide, c3_register_fixed_coverage 5 5 (2, 2) territoryDiscConfig (by decide) 0 2⟩

/-- A closure query with an empty `edge_filters` list: seeds `[0]`,
candidate pool `[1]`, no result filters or limits. -/
def seedsOnlyQuery : ClosureQueryConfig ℕ :=
  { source := [0], candidates := [1], edge_filters := [], result_filters := [],
    max_items := 0, order_by := QueryOrderBy.none, radius := 0 }

/-- C1 (counterexample): with an empty `edge_filter` list,
`matches_edge_filters` returns `true` for every pair, so the BFS absorbs
the whole candidate pool: object `1` is in the result although the seed
query returned only `[0]` — the claimed "seeds only, no expansion"
behaviour is false. -/
theorem c1_empty_edge_filter_counterexample :
    (1 : ℕ) ∈ seedsOnlyQuery.evaluate id ∧ (1 : ℕ) ∉ seedsOnlyQuery.source := by
  constructor
  · rw [evaluate_plain seedsOnlyQuery id rfl rfl rfl, mem_closure_members_iff]
    exact (reach_empty_edge_filters _ _ _).mpr (Or.inr ⟨by simp [seedsOnlyQuery], by
      simp [seedsOnlyQuery]⟩)
  · simp [seedsOnlyQuery]

/-- C1 (amended): for a closure query whose `edge_filter` list is empty
(and without result filters or limits), every candidate passes every
edge, so the evaluation result is the seed set together with the entire
candidate pool (the pool joins whenever the seed set is non-empty); only
a non-empty `edge_filter` restricts expansion. -/
theorem c1_empty_edge_filter_expands_to_pool {α : Type} [DecidableEq α]
    (cfg : ClosureQueryConfig α) (shuffle : List α → List α) (a : α)
    (hedge : cfg.edge_filters = []) (hres : cfg.result_filters = [])
    (hmax : cfg.max_items = 0) (hord : cfg.order_by = QueryOrderBy.none) :
    a ∈ cfg.evaluate shuffle ↔
      a ∈ cfg.source ∨ (cfg.source ≠ [] ∧ a ∈ cfg.candidates) := by
  rw [evaluate_plain cfg shuffle hres hmax hord, mem_closure_members_iff, hedge]
  exact reach_empty_edge_filters cfg.candidates cfg.source a

/-- C1 witness: the amended characterization at the counterexample
query; `1` is in the result because the pool joins the seeds. -/
theorem c1_empty_edge_filter_expands_to_pool_witness :
    seedsOnlyQuery.edge_filters = [] ∧ seedsOnlyQuery.result_filters = []
    ∧ seedsOnlyQuery.max_items = 0 ∧ seedsOnlyQuery.order_by = QueryOrderBy.none
    ∧ ((1 : ℕ) ∈ seedsOnlyQuery.evaluate id ↔
        (1 : ℕ) ∈ seedsOnlyQuery.source ∨
          (seedsOnlyQuery.source ≠ [] ∧ (1 : ℕ) ∈ seedsOnlyQuery.candidates)) :=
  ⟨rfl, rfl, rfl, rfl,
   c1_empty_edge_filter_expands_to_pool seedsOnlyQuery id 1 rfl rfl rfl rfl⟩

/-- A closure query forming the chain 0 → 1 → 2 through its edge filter,
with the bindings-level `radius` field set to 1. -/
def chainQuery : ClosureQueryConfig ℕ :=
  { source := [0], candidates := [1, 2],
    edge_filters := [fun a b => decide (b = a + 1)], result_filters := [],
    max_items := 0, order_by := QueryOrderBy.none, radius := 1 }

/-- C2 (counterexample): `chainQuery` has `radius = 1`, yet object `2`,
whose shortest edge-filter-path distance from the seed is 2 (it is not
reachable within 1 hop), is in the evaluation result: the BFS depth is
not bounded by `radius`. -/
theorem c2_radius_counterexample :
    chainQuery.radius = 1
    ∧ (2 : ℕ) ∉ reachable_within chainQuery.edge_filters chainQuery.candidates
        chainQuery.source 1
    ∧ (2 : ℕ) ∈ chainQuery.evaluate id := by
  refine ⟨rfl, by decide, ?_⟩
  rw [evaluate_plain chainQuery id rfl rfl rfl, mem_closure_members_iff]
  have h0 : Reach chainQuery.edge_filters chainQuery.candidates chainQuery.source 0 :=
    Reach.root (by decide)
  have h1 : Reach chainQuery.edge_filters chainQuery.candidates chainQuery.source 1 :=
    Reach.step h0 (by decide) (by decide)
  exact Reach.step h1 (by decide) (by decide)

/-- C2 (amended): the evaluator never reads `radius` — the result is
identical for every radius value — and (without result filters or
limits) an object is in the result iff it is connected to a seed through
any finite chain of edge-filter-passing hops: the BFS depth is
unlimited, exactly as the claim says for `radius = 0`. -/
theorem c2_radius_ignored {α : Type} [DecidableEq α] (cfg : ClosureQueryConfig α)
    (shuffle : List α → List α) (rad : ℕ) (a : α)
    (hres : cfg.result_filters = []) (hmax : cfg.max_items = 0)
    (hord : cfg.order_by = QueryOrderBy.none) :
    ClosureQueryConfig.evaluate { cfg with radius := rad } shuffle = cfg.evaluate shuffle
    ∧ (a ∈ cfg.evaluate shuffle ↔
        Reach cfg.edge_filters cfg.candidates cfg.source a) := by
  constructor
  · cases cfg
    rfl
  · rw [evaluate_plain cfg shuffle hres hmax hord]
    exact mem_closure_members_iff cfg a

/-- C2 witness: radius-independence and the reachability
characterization at the chain query, for object `2` and radius 7. -/
theorem c2_radius_ignored_witness :
    chainQuery.result_filters = [] ∧ chainQuery.max_items = 0
    ∧ chainQuery.order_by = QueryOrderBy.none
    ∧ (ClosureQueryConfig.evaluate { chainQuery with radius := 7 } id
          = chainQuery.evaluate id
      ∧ ((2 : ℕ) ∈ chainQuery.evaluate id ↔
          Reach chainQuery.edge_filters chainQuery.candidates chainQuery.source 2)) :=
  ⟨rfl, rfl, rfl, c2_radius_ignored chainQuery id 7 2 rfl rfl rfl⟩

/-- C10: during fixed-AOE application for a target with a collective,
if at least one friendly and at least one enemy territory source are
considered (territory flag, collective attached, not a skipped
self-effect, filters pass) and the two sides' best (minimal) squared L2
distances are equal, the contest owner is `Neutral` and no territory
AOE's mutation chain runs against the target; and when the target has
no collective, territory arbitration is skipped entirely — every
source, territory or not, is processed with the plain (ordinary-AOE)
rule. -/
theorem c10_territory_tie_neutral (cid : ℕ) (target_loc : ℤ × ℤ)
    (cell : List AOESourceState) (owner0 : TerritoryOwner) (s s0 : AOESourceState)
    (hf : (friendly_sources (Option.some cid) cell).filter territory_considered ≠ [])
    (he : (enemy_sources (Option.some cid) cell).filter territory_considered ≠ [])
    (hmin : contest_min_key target_loc (friendly_sources (Option.some cid) cell)
        = contest_min_key target_loc (enemy_sources (Option.some cid) cell))
    (hterr : s.controls_territory = true) :
    apply_fixed_owner (Option.some cid) target_loc cell = TerritoryOwner.Neutral
    ∧ mutation_chain_runs (Option.some cid)
        (apply_fixed_owner (Option.some cid) target_loc cell) s = false
    ∧ mutation_chain_runs Option.none owner0 s0 = mutation_chain_runs_plain s0 := by
  have hf' : ((friendly_sources (Option.some cid) cell).filter
      territory_considered).isEmpty = false := by
    rw [Bool.eq_false_iff]
    intro hcase
    exact hf (List.isEmpty_iff.mp hcase)
  have he' : ((enemy_sources (Option.some cid) cell).filter
      territory_considered).isEmpty = false := by
    rw [Bool.eq_false_iff]
    intro hcase
    exact he (List.isEmpty_iff.mp hcase)
  have howner : apply_fixed_owner (Option.some cid) target_loc cell
      = TerritoryOwner.Neutral := by
    rw [apply_fixed_owner, build_contest_spec, TerritoryContest.owner]
    simp only [hf', he', Bool.not_false]
    rw [hmin]
    simp
  refine ⟨howner, ?_, ?_⟩
  · rw [howner]
    cases hcol : s.collective with
    | none => simp [mutation_chain_runs, hterr, hcol]
    | some c2 => simp [mutation_chain_runs, hterr, hcol]
  · rfl

/-- A friendly territory post at distance² 1 from the origin. -/
def friendlyPost : AOESourceState :=
  { collective := Option.some 0, loc := (0, 1), controls_territory := true,
    effect_self := true, is_self := false, passes := true,
    has_mutations := true, has_presence_deltas := false }

/-- An enemy territory post, also at distance² 1 from the origin. -/
def enemyPost : AOESourceState :=
  { collective := Option.some 1, loc := (1, 0), controls_territory := true,
    effect_self := true, is_self := false, passes := true,
    has_mutations := true, has_presence_deltas := false }

/-- C10 witness: a tied contest (both posts at distance² 1 from the
target's cell) yields a Neutral owner and suppresses the friendly
territory post's mutations. -/
theorem c10_territory_tie_neutral_witness :
    ((friendly_sources (Option.some 0) [friendlyPost, enemyPost]).filter
        territory_considered ≠ []
    ∧ (enemy_sources (Option.some 0) [friendlyPost, enemyPost]).filter
        territory_considered ≠ []
    ∧ contest_min_key (0, 0) (friendly_sources (Option.some 0) [friendlyPost, enemyPost])
        = contest_min_key (0, 0) (enemy_sources (Option.some 0) [friendlyPost, enemyPost])
    ∧ friendlyPost.controls_territory = true)
    ∧ (apply_fixed_owner (Option.some 0) (0, 0) [friendlyPost, enemyPost]
          = TerritoryOwner.Neutral
      ∧ mutation_chain_runs (Option.some 0)
          (apply_fixed_owner (Option.some 0) (0, 0) [friendlyPost, enemyPost]) friendlyPost
          = false
      ∧ mutation_chain_runs Option.none TerritoryOwner.Friendly enemyPost
          = mutation_chain_runs_plain enemyPost) :=
  ⟨⟨by decide, by decide, by decide, rfl⟩,
   c10_territory_tie_neutral 0 (0, 0) [friendlyPost, enemyPost] TerritoryOwner.Friendly
     friendlyPost enemyPost (by decide) (by decide) (by decide) rfl⟩

/-- C6: while `recompute` rewrites the membership of a materialized
query tag (the `skip_on_update_trigger` phase) no lifecycle handler
fires; afterwards the dispatch trace consists of exactly one
`on_tag_remove` dispatch per net loser (tagged before, absent from the
new result) and one `on_tag_add` dispatch per net gainer (in the new
result, not tagged before) — each gated on the object actually having
handlers for the tag — and objects that keep the tag trigger nothing
(both count formulas give 0 for them).  `before` is duplicate-free by
the tag-index invariant; `keepEnum` enumerates the keep set. -/
theorem c6_recompute_handler_dispatch {α : Type} [DecidableEq α]
    (hasAdd hasRemove : α → Bool) (before result keepEnum : List α)
    (w : TagWorld α) (o : α)
    (hnd : before.Nodup) (hke : keepEnum.Nodup)
    (hkm : ∀ x, x ∈ keepEnum ↔ x ∈ result) :
    (recompute_rewrite_phase hasAdd hasRemove before result w).events = w.events
    ∧ (recompute hasAdd hasRemove before result keepEnum w).events
        = w.events
          ++ (before.filter (fun x => !decide (x ∈ result) && hasRemove x)).map
              LifecycleEvent.removeFired
          ++ (keepEnum.filter (fun x => !decide (x ∈ before) && hasAdd x)).map
              LifecycleEvent.addFired
    ∧ (recompute hasAdd hasRemove before result keepEnum w).events.count
          (LifecycleEvent.removeFired o)
        = w.events.count (LifecycleEvent.removeFired o)
          + (if o ∈ before ∧ o ∉ result ∧ hasRemove o = true then 1 else 0)
    ∧ (recompute hasAdd hasRemove before result keepEnum w).events.count
          (LifecycleEvent.addFired o)
        = w.events.count (LifecycleEvent.addFired o)
          + (if o ∈ result ∧ o ∉ before ∧ hasAdd o = true then 1 else 0) := by
  have hphase : (recompute_rewrite_phase hasAdd hasRemove before result w).events
      = w.events := by
    rw [recompute_rewrite_phase, add_skip_events, remove_skip_events]
  have hrec : recompute hasAdd hasRemove before result keepEnum w
      = keepEnum.foldl
          (fun s o => if o ∈ before then s else apply_add_handlers hasAdd s o)
          (before.foldl
            (fun s o => if o ∈ result then s else apply_remove_handlers hasRemove s o)
            (recompute_rewrite_phase hasAdd hasRemove before result w)) := rfl
  obtain ⟨hremE, _⟩ := remove_dispatch_fold hasRemove result before
    (recompute_rewrite_phase hasAdd hasRemove before result w)
  have haddE := add_dispatch_fold hasAdd before keepEnum
    (before.foldl
      (fun s o => if o ∈ result then s else apply_remove_handlers hasRemove s o)
      (recompute_rewrite_phase hasAdd hasRemove before result w))
  have hevents : (recompute hasAdd hasRemove before result keepEnum w).events
      = w.events
        ++ (before.filter (fun x => !decide (x ∈ result) && hasRemove x)).map
            LifecycleEvent.removeFired
        ++ (keepEnum.filter (fun x => !decide (x ∈ before) && hasAdd x)).map
            LifecycleEvent.addFired := by
    rw [hrec, haddE, hremE, hphase]
  refine ⟨hphase, hevents, ?_, ?_⟩
  · rw [hevents, List.count_append, List.count_append]
    rw [count_map_removeFired, count_removeFired_in_addFired_map]
    rw [count_filter_nodup before _ o hnd]
    have hiff : (o ∈ before ∧ (!decide (o ∈ result) && hasRemove o) = true) ↔
        (o ∈ before ∧ o ∉ result ∧ hasRemove o = true) := by
      simp
    rw [if_congr hiff rfl rfl]
    omega
  · rw [hevents, List.count_append, List.count_append]
    rw [count_map_addFired, count_addFired_in_removeFired_map]
    rw [count_filter_nodup keepEnum _ o hke]
    have hiff : (o ∈ keepEnum ∧ (!decide (o ∈ before) && hasAdd o) = true) ↔
        (o ∈ result ∧ o ∉ before ∧ hasAdd o = true) := by
      simp [hkm o]
    rw [if_congr hiff rfl rfl]
    omega

/-- C6 witness: before = [1,2], result = keep set = [2,3]; object 1 is a
net loser, so its remove dispatch fires exactly once. -/
theorem c6_recompute_handler_dispatch_witness :
    (([1, 2] : List ℕ).Nodup ∧ ([2, 3] : List ℕ).Nodup
      ∧ ∀ x : ℕ, x ∈ ([2, 3] : List ℕ) ↔ x ∈ ([2, 3] : List ℕ))
    ∧ ((recompute_rewrite_phase (fun _ => true) (fun _ => true) [1, 2] [2, 3]
          { tagged := [1, 2], events := [] }).events = []
      ∧ (recompute (fun _ => true) (fun _ => true) [1, 2] [2, 3] [2, 3]
            { tagged := [1, 2], events := [] }).events
          = []
            ++ (([1, 2] : List ℕ).filter
                (fun x => !decide (x ∈ ([2, 3] : List ℕ)) && (fun _ => true) x)).map
                LifecycleEvent.removeFired
            ++ (([2, 3] : List ℕ).filter
                (fun x => !decide (x ∈ ([1, 2] : List ℕ)) && (fun _ => true) x)).map
                LifecycleEvent.addFired
      ∧ (recompute (fun _ => true) (fun _ => true) [1, 2] [2, 3] [2, 3]
            { tagged := [1, 2], events := [] }).events.count
            (LifecycleEvent.removeFired 1)
          = ([] : List (LifecycleEvent ℕ)).count (LifecycleEvent.removeFired 1)
            + (if (1 : ℕ) ∈ ([1, 2] : List ℕ) ∧ (1 : ℕ) ∉ ([2, 3] : List ℕ)
                  ∧ (fun _ : ℕ => true) 1 = true then 1 else 0)
      ∧ (recompute (fun _ => true) (fun _ => true) [1, 2] [2, 3] [2, 3]
            { tagged := [1, 2], events := [] }).events.count
            (LifecycleEvent.addFired 1)
          = ([] : List (LifecycleEvent ℕ)).count (LifecycleEvent.addFired 1)
            + (if (1 : ℕ) ∈ ([2, 3] : List ℕ) ∧ (1 : ℕ) ∉ ([1, 2] : List ℕ)
                  ∧ (fun _ : ℕ => true) 1 = true then 1 else 0)) :=
  ⟨⟨by decide, by decide, fun x => Iff.rfl⟩,
   c6_recompute_handler_dispatch (fun _ => true) (fun _ => true) [1, 2] [2, 3] [2, 3]
     { tagged := [1, 2], events := [] } 1 (by decide) (by decide) (fun x => Iff.rfl)⟩

/-- The mutations in a chain that take the deferred branch. -/
def eligibles (mods : List ℕ) (cfgs : List ResourceDeltaMutationConfig) :
    List ResourceDeltaMutationConfig :=
  cfgs.filter (fun c => deferred_eligible mods c)

/-- The mutations applied to an inventory immediately. -/
def noneligibles (mods : List ℕ) (cfgs : List ResourceDeltaMutationConfig) :
    List ResourceDeltaMutationConfig :=
  cfgs.filter (fun c => !(deferred_eligible mods c))

/-- C5: with a freshly installed deferred accumulator, (i) the four
inventories after a `ResourceDeltaMutation` chain equal those obtained
by applying only the non-deferred mutations (modifier resources, or an
entity other than the target) — deferred deltas never touch an
inventory; (ii) the accumulator holds the deferred resources in
first-seen order without duplicates, each mapped to the *net* sum of its
deltas; (iii) the `apply_fixed` flush applies exactly one clamped update
per accumulated resource, in first-seen order, with the net delta. -/
theorem c5_deferred_resource_delta
    (cfgs : List ResourceDeltaMutationConfig) (st0 : HandlerCtxState) (rq : ℕ)
    (hd : st0.deferred = Option.some emptyDeferredAcc)
    (hWF : st0.targetInv.WF) :
    (apply_resource_deltas cfgs st0).invs
      = (apply_resource_deltas (noneligibles st0.targetInv.modifiers cfgs) st0).invs
    ∧ (apply_resource_deltas cfgs st0).deferred
        = Option.some (accFold emptyDeferredAcc (eligibles st0.targetInv.modifiers cfgs))
    ∧ (accFold emptyDeferredAcc (eligibles st0.targetInv.modifiers cfgs)).order
        = fs_aux [] ((eligibles st0.targetInv.modifiers cfgs).map (fun c => c.resource_id))
    ∧ (accFold emptyDeferredAcc (eligibles st0.targetInv.modifiers cfgs)).order.Nodup
    ∧ (rq ∈ (accFold emptyDeferredAcc (eligibles st0.targetInv.modifiers cfgs)).order →
        assocLookup (accFold emptyDeferredAcc
            (eligibles st0.targetInv.modifiers cfgs)).deltas rq
          = Option.some (net_sum (eligibles st0.targetInv.modifiers cfgs) rq))
    ∧ flush_deferred (apply_resource_deltas cfgs st0)
        = { apply_resource_deltas cfgs st0 with
            targetInv :=
              (accFold emptyDeferredAcc (eligibles st0.targetInv.modifiers cfgs)).order.foldl
                (fun inv r => inv.update r (net_sum (eligibles st0.targetInv.modifiers cfgs) r))
                (apply_resource_deltas cfgs st0).targetInv } := by
  have horder : (accFold emptyDeferredAcc (eligibles st0.targetInv.modifiers cfgs)).order
      = fs_aux []
          ((eligibles st0.targetInv.modifiers cfgs).map (fun c => c.resource_id)) := by
    rcases accFold_order_seen (eligibles st0.targetInv.modifiers cfgs) emptyDeferredAcc
      with ⟨ho, _⟩
    rw [ho]
    rfl
  have hlookAll : ∀ r ∈ (accFold emptyDeferredAcc
      (eligibles st0.targetInv.modifiers cfgs)).order,
      assocLookup (accFold emptyDeferredAcc
          (eligibles st0.targetInv.modifiers cfgs)).deltas r
        = Option.some (net_sum (eligibles st0.targetInv.modifiers cfgs) r) := by
    intro r hr
    rw [horder] at hr
    have hrm := ((mem_fs_aux _ _ _).mp hr).1
    rw [accFold_deltas (eligibles st0.targetInv.modifiers cfgs) emptyDeferredAcc r]
    rw [if_pos hrm]
    rw [show assocLookup emptyDeferredAcc.deltas r = Option.none from rfl]
    rw [show (Option.none : Option ℤ).getD 0 = 0 from rfl, zero_add]
  refine ⟨?_, ?_, horder, ?_, ?_, ?_⟩
  · exact apply_invs_decomp cfgs st0 emptyDeferredAcc hd
  · exact apply_deferred_content cfgs st0 emptyDeferredAcc hd
  · rw [horder]
    exact fs_aux_nodup _ _
  · intro hr
    exact hlookAll rq hr
  · exact flush_deferred_spec (apply_resource_deltas cfgs st0)
      (accFold emptyDeferredAcc (eligibles st0.targetInv.modifiers cfgs))
      (fun r => net_sum (eligibles st0.targetInv.modifiers cfgs) r)
      (apply_deferred_content cfgs st0 emptyDeferredAcc hd)
      hlookAll
      (apply_targetInv_WF cfgs st0 hWF)

/-- Target inventory for the C5 witness: 5 units of resource 0 capped at
10, no modifier resources. -/
def c5Inv0 : Inventory := { items := [(0, 5)], limits := [(0, 10)], modifiers := [] }

/-- Empty inventory for the other entities in the C5 witness. -/
def c5InvEmpty : Inventory := { items := [], limits := [], modifiers := [] }

/-- C5 witness context: target holds `c5Inv0`, accumulator installed. -/
def c5St0 : HandlerCtxState :=
  { actorInv := c5InvEmpty, targetInv := c5Inv0, actorCollInv := c5InvEmpty,
    targetCollInv := c5InvEmpty, deferred := Option.some emptyDeferredAcc }

/-- C5 witness mutation chain: two deferred target deltas on resource 0
around an immediate actor delta. -/
def c5Cfgs : List ResourceDeltaMutationConfig :=
  [{ entity := EntityRef.target, resource_id := 0, delta := 2 },
   { entity := EntityRef.actor, resource_id := 1, delta := 3 },
   { entity := EntityRef.target, resource_id := 0, delta := -1 }]

/-- C5 witness: the deferral law applied to the concrete chain. -/
theorem c5_deferred_resource_delta_witness :
    (c5St0.deferred = Option.some emptyDeferredAcc ∧ c5St0.targetInv.WF)
    ∧ ((apply_resource_deltas c5Cfgs c5St0).invs
        = (apply_resource_deltas (noneligibles c5St0.targetInv.modifiers c5Cfgs) c5St0).invs
      ∧ (apply_resource_deltas c5Cfgs c5St0).deferred
          = Option.some (accFold emptyDeferredAcc
              (eligibles c5St0.targetInv.modifiers c5Cfgs))
      ∧ (accFold emptyDeferredAcc (eligibles c5St0.targetInv.modifiers c5Cfgs)).order
          = fs_aux []
              ((eligibles c5St0.targetInv.modifiers c5Cfgs).map (fun c => c.resource_id))
      ∧ (accFold emptyDeferredAcc (eligibles c5St0.targetInv.modifiers c5Cfgs)).order.Nodup
      ∧ ((0 : ℕ) ∈ (accFold emptyDeferredAcc
            (eligibles c5St0.targetInv.modifiers c5Cfgs)).order →
          assocLookup (accFold emptyDeferredAcc
              (eligibles c5St0.targetInv.modifiers c5Cfgs)).deltas 0
            = Option.some (net_sum (eligibles c5St0.targetInv.modifiers c5Cfgs) 0))
      ∧ flush_deferred (apply_resource_deltas c5Cfgs c5St0)
          = { apply_resource_deltas c5Cfgs c5St0 with
              targetInv :=
                (accFold emptyDeferredAcc
                    (eligibles c5St0.targetInv.modifiers c5Cfgs)).order.foldl
                  (fun inv r =>
                    inv.update r (net_sum (eligibles c5St0.targetInv.modifiers c5Cfgs) r))
                  (apply_resource_deltas c5Cfgs c5St0).targetInv }) :=
  ⟨⟨rfl, by decide⟩, c5_deferred_resource_delta c5Cfgs c5St0 0 rfl (by decide)⟩

end MettaGridSpec
